import Mathlib

/-!
Verification of the segment-ordering and columnar value-storage layer of the
rucene search engine: the single-segment `Sorter`, the cross-segment
`MultiSorter` k-way merge, the `SortedDocValues` binary search, and the
`MonotonicBlockPackedWriter` codec.

Shallow embedding conventions:
* machine integers (`i64`, `i32`, `usize`) are modelled as `Int`/`Nat`
  (no operation here is overflow-sensitive);
* the `PackedLongValuesBuilder` compact storage is modelled as a plain
  `List`, per the spec invariant that decoding reproduces exactly the
  appended values;
* fallible accessors (`Bits::get`, `NumericDocValues::get`) are modelled as
  total functions, since the claims under verification concern the
  in-memory logic and not I/O failure propagation.
-/

namespace Sorter

/-- Model of the already-sorted linear scan in `Sorter::sort`
(`for i in 1..max_doc { if comparator.compare(i - 1, i)? == Ordering::Greater
{ sorted = false; break } }`). -/
def sortedCheck (maxDoc : Nat) (cmp : Nat → Nat → Ordering) : Bool :=
  (List.range' 1 (maxDoc - 1)).all (fun i => !(cmp (i - 1) i == Ordering.gt))

/-- Model of the `docs.sort_by(..)` stable sort of the doc-id array
`0..max_doc` by the comparator; Rust's `sort_by` is a stable sort, modelled
here by `List.insertionSort` over the relation `compare(a, b) != Greater`. -/
def docsSort (maxDoc : Nat) (cmp : Nat → Nat → Ordering) : List Nat :=
  (List.range maxDoc).insertionSort (fun a b => cmp a b ≠ Ordering.gt)

/-- Model of the inversion loop in `Sorter::sort`
(`for i in 0..max_doc { docs[new_to_old_builder.get(i)? as usize] = i; }`):
the initial array is the sorted `docs` vector itself (it is overwritten in
place, with reads coming from the builder copy). -/
def invert (l : List Nat) : List Nat :=
  (List.range l.length).foldl (fun acc i => acc.set (l.getD i 0) i) l

/-- Model of `Sorter::sort`: if the index is already sorted return `None`,
otherwise return the pair `(old_to_new, new_to_old)` of permutation tables. -/
def sort (maxDoc : Nat) (cmp : Nat → Nat → Ordering) :
    Option (List Nat × List Nat) :=
  if sortedCheck maxDoc cmp then none
  else some (invert (docsSort maxDoc cmp), docsSort maxDoc cmp)

/-- Prefix of the inversion loop: only the first `k` iterations. -/
def invertUpTo (l : List Nat) (k : Nat) : List Nat :=
  (List.range k).foldl (fun acc i => acc.set (l.getD i 0) i) l

theorem invertUpTo_zero (l : List Nat) : invertUpTo l 0 = l := rfl

theorem invertUpTo_succ (l : List Nat) (k : Nat) :
    invertUpTo l (k + 1) = (invertUpTo l k).set (l.getD k 0) k := by
  unfold invertUpTo
  rw [List.range_succ, List.foldl_append]
  rfl

theorem invertUpTo_length (l : List Nat) (k : Nat) :
    (invertUpTo l k).length = l.length := by
  induction k with
  | zero => rfl
  | succ k ih => rw [invertUpTo_succ, List.length_set, ih]

theorem invert_eq_upTo (l : List Nat) : invert l = invertUpTo l l.length := rfl

/-- The elements of a permutation of `range n` are exactly the naturals
below `n`. -/
theorem perm_range_getD_lt (l : List Nat) (h : List.Perm l (List.range l.length))
    (j : Nat) (hj : j < l.length) : l.getD j 0 < l.length := by
  have hmem : l.getD j 0 ∈ l := by
    rw [List.getD_eq_getElem l 0 hj]
    exact List.getElem_mem hj
  have := h.mem_iff.mp hmem
  simpa [List.mem_range] using this

theorem perm_range_nodup (l : List Nat) (h : List.Perm l (List.range l.length)) :
    l.Nodup :=
  h.nodup_iff.mpr (List.nodup_range _)

theorem nodup_getD_injective (l : List Nat) (hnd : l.Nodup) (j1 j2 : Nat)
    (h1 : j1 < l.length) (h2 : j2 < l.length)
    (heq : l.getD j1 0 = l.getD j2 0) : j1 = j2 := by
  rw [List.getD_eq_getElem l 0 h1, List.getD_eq_getElem l 0 h2] at heq
  exact List.Nodup.getElem_inj_iff hnd |>.mp heq

/-- Core inversion correctness: after the first `k` iterations, every
position `l[j]` for `j < k` holds `j`. -/
theorem invertUpTo_getD (l : List Nat) (h : List.Perm l (List.range l.length))
    (k : Nat) (hk : k ≤ l.length) :
    ∀ j, j < k → (invertUpTo l k).getD (l.getD j 0) 0 = j := by
  induction k with
  | zero => intro j hj; omega
  | succ k ih =>
    intro j hj
    rw [invertUpTo_succ]
    have hlen : (invertUpTo l k).length = l.length := invertUpTo_length l k
    have hjlt : j < l.length := lt_of_lt_of_le hj hk
    have hklt : k < l.length := lt_of_lt_of_le (Nat.lt_succ_self k) hk
    have hjpos : l.getD j 0 < l.length := perm_range_getD_lt l h j hjlt
    have hkpos : l.getD k 0 < l.length := perm_range_getD_lt l h k hklt
    rcases Nat.lt_or_ge j k with hlt | hge
    · have hne : l.getD j 0 ≠ l.getD k 0 := by
        intro hcontra
        exact absurd (nodup_getD_injective l (perm_range_nodup l h) j k hjlt
          hklt hcontra) (by omega)
      have h1 : l.getD j 0 < (invertUpTo l k).length := by
        rw [hlen]; exact hjpos
      have h2 : l.getD j 0 < ((invertUpTo l k).set (l.getD k 0) k).length := by
        rw [List.length_set]; exact h1
      have hset : ((invertUpTo l k).set (l.getD k 0) k).getD (l.getD j 0) 0 =
          (invertUpTo l k).getD (l.getD j 0) 0 := by
        rw [List.getD_eq_getElem _ 0 h2, List.getD_eq_getElem _ 0 h1,
          List.getElem_set, if_neg (Ne.symm hne)]
      rw [hset]
      exact ih (le_of_lt hk) j hlt
    · have hjk : j = k := by omega
      subst hjk
      have h2 : l.getD j 0 < ((invertUpTo l j).set (l.getD j 0) j).length := by
        rw [List.length_set, invertUpTo_length]; exact hjpos
      rw [List.getD_eq_getElem _ 0 h2, List.getElem_set, if_pos rfl]

theorem invert_getD (l : List Nat) (h : List.Perm l (List.range l.length)) :
    ∀ j, j < l.length → (invert l).getD (l.getD j 0) 0 = j := by
  rw [invert_eq_upTo]
  exact invertUpTo_getD l h l.length le_rfl

/-- When `sort` returns a map, `new_to_old` is the stable sort of the
identity array, hence a permutation of `range maxDoc`. -/
theorem sort_newToOld_perm (maxDoc : Nat) (cmp : Nat → Nat → Ordering)
    (o2n n2o : List Nat) (h : sort maxDoc cmp = some (o2n, n2o)) :
    List.Perm n2o (List.range maxDoc) ∧ n2o.length = maxDoc ∧ o2n = invert n2o := by
  unfold sort at h
  by_cases hs : sortedCheck maxDoc cmp
  · simp [hs] at h
  · simp only [hs, Bool.false_eq_true, if_false, Option.some.injEq,
      Prod.mk.injEq] at h
    obtain ⟨ho, hn⟩ := h
    have hperm : List.Perm (docsSort maxDoc cmp) (List.range maxDoc) :=
      List.perm_insertionSort _ _
    subst hn
    refine ⟨hperm, ?_, ho.symm⟩
    rw [hperm.length_eq, List.length_range]

end Sorter

/-- C1: for every single-segment sort in which `Sorter::sort` returns a
`PackedLongDocMap` (`maxDoc ≥ 1`), the two tables are exact inverses: for
every old doc id `d < maxDoc`, `new_to_old (old_to_new d) = d` and
`old_to_new (new_to_old (old_to_new d)) = old_to_new d`, every
`old_to_new d` lies below `maxDoc`, and `new_to_old` is a bijection onto
`0..maxDoc` (bounded, injective, surjective). -/
theorem sorter_sort_permutation_inverse (maxDoc : Nat)
    (cmp : Nat → Nat → Ordering) (o2n n2o : List Nat)
    (hmax : 1 ≤ maxDoc) (h : Sorter.sort maxDoc cmp = some (o2n, n2o)) :
    (∀ d, d < maxDoc →
      n2o.getD (o2n.getD d 0) 0 = d ∧
      o2n.getD d 0 < maxDoc ∧
      o2n.getD (n2o.getD (o2n.getD d 0) 0) 0 = o2n.getD d 0) ∧
    (∀ j, j < maxDoc → n2o.getD j 0 < maxDoc) ∧
    (∀ j1, j1 < maxDoc → ∀ j2, j2 < maxDoc →
      n2o.getD j1 0 = n2o.getD j2 0 → j1 = j2) ∧
    (∀ v, v < maxDoc → ∃ j, j < maxDoc ∧ n2o.getD j 0 = v) := by
  obtain ⟨hperm, hlen, ho⟩ := Sorter.sort_newToOld_perm maxDoc cmp o2n n2o h
  have hperm' : List.Perm n2o (List.range n2o.length) := by rw [hlen]; exact hperm
  have hsurj : ∀ v, v < maxDoc → ∃ j, j < maxDoc ∧ n2o.getD j 0 = v := by
    intro v hv
    have hvmem : v ∈ n2o := hperm.mem_iff.mpr (List.mem_range.mpr hv)
    obtain ⟨j, hj, hget⟩ := List.getElem_of_mem hvmem
    refine ⟨j, by omega, ?_⟩
    rw [List.getD_eq_getElem n2o 0 hj, hget]
  refine ⟨?_, ?_, ?_, hsurj⟩
  · intro d hd
    obtain ⟨j, hj, hget⟩ := hsurj d hd
    have hinv : (Sorter.invert n2o).getD (n2o.getD j 0) 0 = j :=
      Sorter.invert_getD n2o hperm' j (by omega)
    have ho2nd : o2n.getD d 0 = j := by rw [ho, ← hget, hinv]
    refine ⟨?_, ?_, ?_⟩
    · rw [ho2nd, hget]
    · rw [ho2nd]; omega
    · rw [ho2nd, hget, ho2nd]
  · intro j hj
    have := Sorter.perm_range_getD_lt n2o hperm' j (by omega)
    omega
  · intro j1 hj1 j2 hj2 heq
    exact Sorter.nodup_getD_injective n2o (Sorter.perm_range_nodup n2o hperm')
      j1 j2 (by omega) (by omega) heq

/-- Witness for C1 at `maxDoc = 3` with a descending comparator: the sort
returns `([2,1,0], [2,1,0])` and all inverse-law conclusions hold. -/
theorem sorter_sort_permutation_inverse_witness :
    (1 ≤ 3 ∧ Sorter.sort 3 (fun a b => compare b a) = some ([2,1,0], [2,1,0])) ∧
    ((∀ d, d < 3 →
      [2,1,0].getD ([2,1,0].getD d 0) 0 = d ∧
      [2,1,0].getD d 0 < 3 ∧
      [2,1,0].getD ([2,1,0].getD ([2,1,0].getD d 0) 0) 0 = [2,1,0].getD d 0) ∧
    (∀ j, j < 3 → [2,1,0].getD j 0 < 3) ∧
    (∀ j1, j1 < 3 → ∀ j2, j2 < 3 →
      [2,1,0].getD j1 0 = [2,1,0].getD j2 0 → j1 = j2) ∧
    (∀ v, v < 3 → ∃ j, j < 3 ∧ [2,1,0].getD j 0 = v)) :=
  ⟨⟨by decide, by decide⟩,
    sorter_sort_permutation_inverse 3 (fun a b => compare b a) [2,1,0] [2,1,0]
      (by decide) (by decide)⟩

/-- C3: single-segment sort returns `None` (no permutation) exactly when
documents `0..maxDoc-1` already satisfy the comparator order, i.e. no
adjacent pair compares `Greater`; when some adjacent pair is out of order it
returns a materialized map. -/
theorem sorter_sort_fast_path (maxDoc : Nat) (cmp : Nat → Nat → Ordering) :
    (Sorter.sort maxDoc cmp = none ↔
      (∀ i, 1 ≤ i → i < maxDoc → cmp (i - 1) i ≠ Ordering.gt)) ∧
    ((∃ i, 1 ≤ i ∧ i < maxDoc ∧ cmp (i - 1) i = Ordering.gt) →
      ∃ maps, Sorter.sort maxDoc cmp = some maps) := by
  have hiff : Sorter.sortedCheck maxDoc cmp = true ↔
      (∀ i, 1 ≤ i → i < maxDoc → cmp (i - 1) i ≠ Ordering.gt) := by
    unfold Sorter.sortedCheck
    rw [List.all_eq_true]
    constructor
    · intro hall i h1 h2
      have hmem : i ∈ List.range' 1 (maxDoc - 1) := by
        rw [List.mem_range']
        exact ⟨i - 1, by omega, by omega⟩
      have hb := hall i hmem
      intro hgt
      rw [hgt] at hb
      exact absurd hb (by decide)
    · intro hp i hmem
      rw [List.mem_range'] at hmem
      obtain ⟨k, hk, hik⟩ := hmem
      have hne := hp i (by omega) (by omega)
      cases hcmp : cmp (i - 1) i with
      | lt => rfl
      | eq => rfl
      | gt => exact absurd hcmp hne
  constructor
  · unfold Sorter.sort
    by_cases hs : Sorter.sortedCheck maxDoc cmp
    · simp only [hs, if_true]
      exact ⟨fun _ => hiff.mp hs, fun _ => by simp⟩
    · simp only [hs, Bool.false_eq_true, if_false]
      constructor
      · intro hcontra; exact absurd hcontra (by simp)
      · intro hp
        exact absurd (hiff.mpr hp) hs
  · intro hex
    obtain ⟨i, h1, h2, hgt⟩ := hex
    unfold Sorter.sort
    have hs : ¬ Sorter.sortedCheck maxDoc cmp = true := by
      intro hcontra
      exact absurd hgt (hiff.mp hcontra i h1 h2)
    simp only [hs, Bool.false_eq_true, if_false]
    exact ⟨_, rfl⟩

/-- Witness for C3: an ascending 2-doc segment yields `none`, a descending
one yields a materialized map. -/
theorem sorter_sort_fast_path_witness :
    Sorter.sort 2 (fun a b => compare a b) = none ∧
    (∃ maps, Sorter.sort 2 (fun a b => compare b a) = some maps) :=
  ⟨(sorter_sort_fast_path 2 (fun a b => compare a b)).1.mpr
      (fun i h1 h2 => by
        have hi : i = 1 := by omega
        subst hi; decide),
    (sorter_sort_fast_path 2 (fun a b => compare b a)).2
      ⟨1, le_refl 1, by decide, by decide⟩⟩

namespace SortedDocValuesModel

/-- Modelled from the spec: `bit_util::bcompare` (its source is not under
`src/`) is the lexicographic byte-string comparison driving `lookup_term`;
the sign of the result is all that the search loop consumes, so it is
modelled as returning exactly -1, 0 or 1. Bytes are modelled as `Nat`. -/
def bcompare : List Nat → List Nat → Int
  | [], [] => 0
  | [], _ :: _ => -1
  | _ :: _, [] => 1
  | x :: xs, y :: ys => if x < y then -1 else if y < x then 1 else bcompare xs ys

theorem bcompare_vals (x y : List Nat) :
    bcompare x y = -1 ∨ bcompare x y = 0 ∨ bcompare x y = 1 := by
  induction x generalizing y with
  | nil => cases y <;> simp [bcompare]
  | cons a xs ih =>
    cases y with
    | nil => simp [bcompare]
    | cons b ys =>
      simp only [bcompare]
      split_ifs <;> simp [ih ys]

theorem bcompare_eq_zero_iff (x y : List Nat) : bcompare x y = 0 ↔ x = y := by
  induction x generalizing y with
  | nil => cases y <;> simp [bcompare]
  | cons a xs ih =>
    cases y with
    | nil => simp [bcompare]
    | cons b ys =>
      simp only [bcompare]
      split_ifs with h1 h2
      · constructor
        · intro hc; exact absurd hc (by decide)
        · intro hc
          injection hc with he _
          omega
      · constructor
        · intro hc; exact absurd hc (by decide)
        · intro hc
          injection hc with he _
          omega
      · have hab : a = b := by omega
        subst hab
        rw [ih ys]
        constructor
        · intro hc; rw [hc]
        · intro hc; injection hc

theorem bcompare_swap (x y : List Nat) : bcompare y x = -bcompare x y := by
  induction x generalizing y with
  | nil => cases y <;> simp [bcompare]
  | cons a xs ih =>
    cases y with
    | nil => simp [bcompare]
    | cons b ys =>
      simp only [bcompare]
      split_ifs <;> first | omega | exact ih ys

theorem bcompare_trans_neg (x y z : List Nat) (h1 : bcompare x y = -1)
    (h2 : bcompare y z = -1) : bcompare x z = -1 := by
  induction x generalizing y z with
  | nil =>
    cases y with
    | nil => exact absurd h1 (by simp [bcompare])
    | cons b ys =>
      cases z with
      | nil => exact absurd h2 (by simp [bcompare])
      | cons c cs => simp [bcompare]
  | cons a xs ih =>
    cases y with
    | nil => exact absurd h1 (by simp [bcompare])
    | cons b ys =>
      cases z with
      | nil => exact absurd h2 (by simp [bcompare])
      | cons c cs =>
        simp only [bcompare] at h1 h2 ⊢
        split_ifs at h1 h2 ⊢ <;> first | rfl | omega | exact ih ys cs h1 h2

/-- Model of the binary-search loop shared by
`SortedDocValues::lookup_term` and the general branch of
`TailoredSortedDocValuesInner::lookup_term` (the two loops in the source
are verbatim copies): `low`/`high` are `i32` values, `mid = low +
(high - low) / 2`, and the dictionary is consulted through `lookup_ord`. -/
def lookupTermLoop (ord : Nat → List Nat) (key : List Nat)
    (low high : Int) : Int :=
  if h : low ≤ high then
    let mid := low + (high - low) / 2
    let cmp := bcompare (ord mid.toNat) key
    if cmp < 0 then lookupTermLoop ord key (mid + 1) high
    else if cmp > 0 then lookupTermLoop ord key low (mid - 1)
    else mid
  else -(low + 1)
termination_by (high + 1 - low).toNat
decreasing_by
  · omega
  · omega

/-- Model of `lookup_term`: binary search over ordinals
`0..value_count - 1`. -/
def lookup_term (ord : Nat → List Nat) (valueCount : Nat)
    (key : List Nat) : Int :=
  lookupTermLoop ord key 0 ((valueCount : Int) - 1)

end SortedDocValuesModel

namespace SortedDocValuesModel

theorem lookupTermLoop_eq_left (ord : Nat → List Nat) (key : List Nat)
    (low high : Int) (hle : low ≤ high)
    (hlt : bcompare (ord (low + (high - low) / 2).toNat) key < 0) :
    lookupTermLoop ord key low high =
      lookupTermLoop ord key (low + (high - low) / 2 + 1) high := by
  rw [lookupTermLoop]
  simp only [dif_pos hle]
  simp only [if_pos hlt]

theorem lookupTermLoop_eq_right (ord : Nat → List Nat) (key : List Nat)
    (low high : Int) (hle : low ≤ high)
    (hnlt : ¬ bcompare (ord (low + (high - low) / 2).toNat) key < 0)
    (hgt : bcompare (ord (low + (high - low) / 2).toNat) key > 0) :
    lookupTermLoop ord key low high =
      lookupTermLoop ord key low (low + (high - low) / 2 - 1) := by
  rw [lookupTermLoop]
  simp only [dif_pos hle]
  simp only [if_neg hnlt, if_pos hgt]

theorem lookupTermLoop_eq_found (ord : Nat → List Nat) (key : List Nat)
    (low high : Int) (hle : low ≤ high)
    (hnlt : ¬ bcompare (ord (low + (high - low) / 2).toNat) key < 0)
    (hngt : ¬ bcompare (ord (low + (high - low) / 2).toNat) key > 0) :
    lookupTermLoop ord key low high = low + (high - low) / 2 := by
  rw [lookupTermLoop]
  simp only [dif_pos hle]
  simp only [if_neg hnlt, if_neg hngt]

theorem lookupTermLoop_eq_stop (ord : Nat → List Nat) (key : List Nat)
    (low high : Int) (hnle : ¬ low ≤ high) :
    lookupTermLoop ord key low high = -(low + 1) := by
  rw [lookupTermLoop]
  simp only [dif_neg hnle]

/-- Full invariant-based correctness of the binary-search loop, by strong
induction on the size of the remaining interval. -/
theorem lookupTermLoop_specAux (ord : Nat → List Nat) (key : List Nat)
    (count : Nat)
    (hsorted : ∀ j, j < count → ∀ i, i < j → bcompare (ord i) (ord j) = -1) :
    ∀ n : Nat, ∀ low high : Int, (high + 1 - low).toNat ≤ n →
    0 ≤ low → high < (count : Int) → low ≤ high + 1 →
    (∀ j : Nat, (j : Int) < low → bcompare (ord j) key = -1) →
    (∀ j : Nat, high < (j : Int) → j < count → bcompare (ord j) key = 1) →
    ((0 ≤ lookupTermLoop ord key low high →
       lookupTermLoop ord key low high < (count : Int) ∧
       bcompare (ord (lookupTermLoop ord key low high).toNat) key = 0) ∧
     (lookupTermLoop ord key low high < 0 →
       ∃ ip : Nat, lookupTermLoop ord key low high = -((ip : Int) + 1) ∧
         ip ≤ count ∧
         (∀ j : Nat, j < ip → bcompare (ord j) key = -1) ∧
         (∀ j : Nat, ip ≤ j → j < count → bcompare (ord j) key = 1))) := by
  intro n
  induction n with
  | zero =>
    intro low high hm h0 hhc hlh hlowInv hhighInv
    have hnle : ¬ low ≤ high := by omega
    rw [lookupTermLoop_eq_stop ord key low high hnle]
    constructor
    · intro hpos; omega
    · intro hneg
      refine ⟨low.toNat, by omega, by omega, ?_, ?_⟩
      · intro j hj
        exact hlowInv j (by omega)
      · intro j hj hjc
        exact hhighInv j (by omega) hjc
  | succ n ihn =>
    intro low high hm h0 hhc hlh hlowInv hhighInv
    by_cases hle : low ≤ high
    · have hMlow : low ≤ low + (high - low) / 2 := by omega
      have hMhigh : low + (high - low) / 2 ≤ high := by omega
      have hMcount : (low + (high - low) / 2).toNat < count := by omega
      rcases bcompare_vals (ord (low + (high - low) / 2).toNat) key
        with hM | hM | hM
      · rw [lookupTermLoop_eq_left ord key low high hle (by omega)]
        refine ihn (low + (high - low) / 2 + 1) high (by omega) (by omega)
          hhc (by omega) ?_ hhighInv
        intro j hj
        by_cases hjlow : (j : Int) < low
        · exact hlowInv j hjlow
        · by_cases hjM : (j : Int) = low + (high - low) / 2
          · have hjeq : j = (low + (high - low) / 2).toNat := by omega
            rw [hjeq]; exact hM
          · have hjlt : j < (low + (high - low) / 2).toNat := by omega
            exact bcompare_trans_neg _ _ _
              (hsorted (low + (high - low) / 2).toNat hMcount j hjlt) hM
      · rw [lookupTermLoop_eq_found ord key low high hle (by omega) (by omega)]
        constructor
        · intro hpos
          exact ⟨by omega, by rw [show ((low + (high - low) / 2).toNat) =
            (low + (high - low) / 2).toNat from rfl]; exact hM⟩
        · intro hneg
          omega
      · rw [lookupTermLoop_eq_right ord key low high hle (by omega) (by omega)]
        refine ihn low (low + (high - low) / 2 - 1) (by omega) h0
          (by omega) (by omega) hlowInv ?_
        intro j hj hjc
        by_cases hjM : (j : Int) = low + (high - low) / 2
        · have hjeq : j = (low + (high - low) / 2).toNat := by omega
          rw [hjeq]; exact hM
        · have hjgt : (low + (high - low) / 2).toNat < j := by omega
          have hMj : bcompare (ord (low + (high - low) / 2).toNat) (ord j) = -1 :=
            hsorted j hjc (low + (high - low) / 2).toNat hjgt
          have hkeyM : bcompare key (ord (low + (high - low) / 2).toNat) = -1 := by
            have := bcompare_swap (ord (low + (high - low) / 2).toNat) key
            omega
          have hkj : bcompare key (ord j) = -1 :=
            bcompare_trans_neg _ _ _ hkeyM hMj
          have := bcompare_swap key (ord j)
          omega
    · rw [lookupTermLoop_eq_stop ord key low high hle]
      constructor
      · intro hpos; omega
      · intro hneg
        refine ⟨low.toNat, by omega, by omega, ?_, ?_⟩
        · intro j hj
          exact hlowInv j (by omega)
        · intro j hj hjc
          exact hhighInv j (by omega) hjc

end SortedDocValuesModel

/-- C2: for every dictionary lexicographically sorted over ordinals
`0..valueCount-1` and every key, `lookup_term` returns the matching ordinal
when some ordinal's term equals the key, and otherwise returns
`-(insertionPoint+1)` where `insertionPoint` is the smallest ordinal whose
term is greater than the key (`valueCount` if none): every ordinal below it
compares less than the key and every ordinal from it on compares greater. -/
theorem sorted_doc_values_lookup_term (ord : Nat → List Nat)
    (valueCount : Nat) (key : List Nat)
    (hsorted : ∀ j, j < valueCount → ∀ i, i < j →
      SortedDocValuesModel.bcompare (ord i) (ord j) = -1) :
    (∀ i, i < valueCount → ord i = key →
       SortedDocValuesModel.lookup_term ord valueCount key = (i : Int)) ∧
    ((∀ i, i < valueCount → ord i ≠ key) →
       ∃ ip, ip ≤ valueCount ∧
         SortedDocValuesModel.lookup_term ord valueCount key = -((ip : Int) + 1) ∧
         (∀ j, j < ip → SortedDocValuesModel.bcompare (ord j) key = -1) ∧
         (∀ j, ip ≤ j → j < valueCount →
           SortedDocValuesModel.bcompare (ord j) key = 1)) := by
  have hspec := SortedDocValuesModel.lookupTermLoop_specAux ord key valueCount
    hsorted (((valueCount : Int) - 1) + 1 - 0).toNat 0 ((valueCount : Int) - 1)
    le_rfl (by omega) (by omega) (by omega)
    (fun j hj => absurd hj (by omega))
    (fun j hj hjc => absurd hj (by omega))
  have hr : SortedDocValuesModel.lookup_term ord valueCount key =
      SortedDocValuesModel.lookupTermLoop ord key 0 ((valueCount : Int) - 1) :=
    rfl
  constructor
  · intro i hi hkey
    rcases Int.lt_or_le (SortedDocValuesModel.lookupTermLoop ord key 0
      ((valueCount : Int) - 1)) 0 with hneg | hpos
    · obtain ⟨ip, hipEq, hipLe, hipLt, hipGe⟩ := hspec.2 hneg
      have hzero : SortedDocValuesModel.bcompare (ord i) key = 0 := by
        rw [hkey]
        exact (SortedDocValuesModel.bcompare_eq_zero_iff key key).mpr rfl
      rcases Nat.lt_or_ge i ip with hlt | hge
      · have := hipLt i hlt; omega
      · have := hipGe i hge hi; omega
    · obtain ⟨hlt, hzero⟩ := hspec.1 hpos
      have hkeyEq : ord (SortedDocValuesModel.lookupTermLoop ord key 0
          ((valueCount : Int) - 1)).toNat = key :=
        (SortedDocValuesModel.bcompare_eq_zero_iff _ _).mp hzero
      have hieq : i = (SortedDocValuesModel.lookupTermLoop ord key 0
          ((valueCount : Int) - 1)).toNat := by
        by_contra hne
        rcases Nat.lt_or_ge i ((SortedDocValuesModel.lookupTermLoop ord key 0
          ((valueCount : Int) - 1)).toNat) with h1 | h1
        · have hcmp := hsorted _ (by omega) i h1
          rw [hkey, hkeyEq] at hcmp
          have := (SortedDocValuesModel.bcompare_eq_zero_iff key key).mpr rfl
          omega
        · have h1' : (SortedDocValuesModel.lookupTermLoop ord key 0
              ((valueCount : Int) - 1)).toNat < i := by omega
          have hcmp := hsorted i hi _ h1'
          rw [hkey, hkeyEq] at hcmp
          have := (SortedDocValuesModel.bcompare_eq_zero_iff key key).mpr rfl
          omega
      rw [hr]
      omega
  · intro habs
    rcases Int.lt_or_le (SortedDocValuesModel.lookupTermLoop ord key 0
      ((valueCount : Int) - 1)) 0 with hneg | hpos
    · obtain ⟨ip, hipEq, hipLe, hipLt, hipGe⟩ := hspec.2 hneg
      exact ⟨ip, hipLe, by rw [hr]; exact hipEq, hipLt, hipGe⟩
    · obtain ⟨hlt, hzero⟩ := hspec.1 hpos
      have hkeyEq : ord (SortedDocValuesModel.lookupTermLoop ord key 0
          ((valueCount : Int) - 1)).toNat = key :=
        (SortedDocValuesModel.bcompare_eq_zero_iff _ _).mp hzero
      exact absurd hkeyEq (habs _ (by omega))

/-- Witness for C2 on the three-entry dictionary `[[1], [3], [5]]`: the
present key `[3]` is found at ordinal 1, and for the absent key `[4]` the
insertion point 2 is reported via the negative encoding. -/
theorem sorted_doc_values_lookup_term_witness :
    SortedDocValuesModel.lookup_term
      (fun i => [[1], [3], [5]].getD i []) 3 [3] = (1 : Int) ∧
    (∃ ip : Nat, ip ≤ 3 ∧
      SortedDocValuesModel.lookup_term
        (fun i => [[1], [3], [5]].getD i []) 3 [4] = -((ip : Int) + 1) ∧
      (∀ j, j < ip → SortedDocValuesModel.bcompare
        ([[1], [3], [5]].getD j []) [4] = -1) ∧
      (∀ j, ip ≤ j → j < 3 → SortedDocValuesModel.bcompare
        ([[1], [3], [5]].getD j []) [4] = 1)) :=
  ⟨(sorted_doc_values_lookup_term (fun i => [[1], [3], [5]].getD i []) 3 [3]
      (by decide)).1 1 (by decide) (by decide),
   (sorted_doc_values_lookup_term (fun i => [[1], [3], [5]].getD i []) 3 [4]
      (by decide)).2 (by decide)⟩

namespace F32Model

/-- Exact rational value as an unreduced fraction with positive denominator
(kept unreduced so that every operation kernel-reduces); used to model
IEEE-754 `f32` arithmetic exactly. Only the normal range is modelled, which
covers every value arising in the claims below; infinities, NaN and
subnormals do not occur there. -/
structure Q where
  num : Int
  den : Int
deriving DecidableEq

/-- Integer to exact rational. -/
def ofInt (n : Int) : Q := ⟨n, 1⟩

/-- Exact product. -/
def mulQ (a b : Q) : Q := ⟨a.num * b.num, a.den * b.den⟩

/-- Exact quotient, normalizing the sign into the numerator; division by an
exact zero never occurs in the modelled code paths and returns 0. -/
def divQ (a b : Q) : Q :=
  if b.num < 0 then ⟨-(a.num * b.den), a.den * (-b.num)⟩
  else if b.num = 0 then ⟨0, 1⟩
  else ⟨a.num * b.den, a.den * b.num⟩

/-- Comparison (valid for positive denominators). -/
def Q.blt (a b : Q) : Bool := decide (a.num * b.den < b.num * a.den)

/-- Floor of an exact rational with positive denominator. -/
def floorQ (a : Q) : Int := Int.fdiv a.num a.den

/-- Round half away from zero on nonnegative input: models the spec's
`round(avg * i)` in the block predictor. -/
def roundQ (a : Q) : Int := Int.fdiv (2 * a.num + a.den) (2 * a.den)

/-- Fuel-based floor-log2 for values at least 1: halve until below 2. -/
def log2Up : Nat → Q → Int
  | 0, _ => 0
  | f + 1, x => if x.blt ⟨2, 1⟩ then 0 else log2Up f ⟨x.num, 2 * x.den⟩ + 1

/-- Fuel-based floor-log2 for values below 1: double until at least 1. -/
def log2Down : Nat → Q → Int
  | 0, _ => 0
  | f + 1, x =>
    if x.blt ⟨1, 1⟩ then log2Down f ⟨2 * x.num, x.den⟩ - 1 else 0

/-- Floor of the base-2 logarithm of a positive rational. -/
def floorLog2 (x : Q) : Int :=
  if x.blt ⟨1, 1⟩ then log2Down 300 x else log2Up 300 x

/-- The power `2^e` as an exact rational. -/
def pow2 (e : Int) : Q :=
  if 0 ≤ e then ⟨2 ^ e.toNat, 1⟩ else ⟨1, 2 ^ (-e).toNat⟩

/-- IEEE-754 binary32 rounding (round to nearest, ties to even) of an exact
rational: scale the magnitude by the unit in the last place at its binade
(24-bit significand) and round the scaled value to an integer. -/
def f32round (x : Q) : Q :=
  if x.num = 0 then ⟨0, 1⟩
  else
    let s : Int := if x.num < 0 then -1 else 1
    let m : Q := ⟨s * x.num, x.den⟩
    let e : Int := floorLog2 m
    let ulp : Q := pow2 (e - 23)
    let q : Q := divQ m ulp
    let k : Int := floorQ q
    let r2 : Int := 2 * (q.num - k * q.den)
    let kk : Int :=
      if r2 < q.den then k
      else if q.den < r2 then k + 1
      else if k % 2 = 0 then k else k + 1
    mulQ ⟨s * kk, 1⟩ ulp

/-- The `as f32` cast of an integer (`i64`/`i32`/`usize` to `f32`). -/
def f32ofInt (n : Int) : Q := f32round (ofInt n)

/-- IEEE `f32` division: correctly rounded exact quotient. -/
def f32div (a b : Q) : Q := f32round (divQ a b)

/-- IEEE `f32` multiplication: correctly rounded exact product. -/
def f32mul (a b : Q) : Q := f32round (mulQ a b)

end F32Model

namespace MonotonicBlockPacked

/-- Modelled from the spec: `MonotonicBlockPackedReader::expected` (its
source file is not under `src/`): the predicted value at position `idx` is
`min + round(avg * idx)` with the product taken in `f32` (the spec stores
`avg` as a 32-bit float and predicts `v0 + round(avg * i)`). -/
def expected (origin : Int) (average : F32Model.Q) (idx : Nat) : Int :=
  origin + F32Model.roundQ (F32Model.f32mul average (F32Model.f32ofInt idx))

/-- One output token of the block writer; `avgBits` stands for the 4 raw
bytes of the `f32` average, carried here as its exact value. -/
inductive OutToken where
  | zlong (v : Int)
  | avgBits (v : F32Model.Q)
  | vint (v : Nat)
  | packed (bitsPerValue : Nat) (vals : List Int)
deriving DecidableEq

/-- Fuel-based bit length of a natural number. -/
def bitsLen : Nat → Nat → Nat
  | 0, _ => 0
  | f + 1, n => if n = 0 then 0 else bitsLen f (n / 2) + 1

/-- Modelled from the spec: `packed_misc::unsigned_bits_required` (not under
`src/`) is the minimal unsigned bit width covering the value. -/
def unsigned_bits_required (v : Int) : Nat := max 1 (bitsLen 64 v.toNat)

/-- Model of the `avg` computation in `MonotonicBlockPackedWriter::flush`:
`0f32` for a single-value block, otherwise
`(values[off-1] - values[0]) as f32 / (off - 1) as f32`. -/
def avgOf (vals : List Int) : F32Model.Q :=
  if vals.length = 1 then ⟨0, 1⟩
  else F32Model.f32div (F32Model.f32ofInt (vals.getLastD 0 - vals.headD 0))
    (F32Model.f32ofInt ((vals.length : Int) - 1))

/-- Model of the `min`-adjustment loop body in `flush`, processing the
listed `(index, actual)` pairs in order. -/
def adjustMin (avg : F32Model.Q) : Int → List (Nat × Int) → Int
  | m, [] => m
  | m, (i, actual) :: rest =>
    adjustMin avg
      (if actual < expected m avg i then m - (expected m avg i - actual)
       else m) rest

/-- The adjusted `min` of a block: start from `values[0]` and walk positions
`1..off` adjusting `min` downward whenever the prediction exceeds the
actual value. -/
def minOf (vals : List Int) (avg : F32Model.Q) : Int :=
  adjustMin avg (vals.headD 0)
    (List.zip (List.range' 1 (vals.length - 1)) vals.tail)

/-- The residual deltas `values[i] - expected(min, avg, i)` written by
`flush` (the source subtracts in place over the buffer). -/
def residualsOf (vals : List Int) (minF : Int) (avg : F32Model.Q) :
    List Int :=
  vals.mapIdx (fun i v => v - expected minF avg i)

/-- Model of `MonotonicBlockPackedWriter::flush`: emit the zig-zag `min`,
the `f32` average bits, then the residual bit width (0 when the maximal
delta is 0, in which case no body follows) and the packed residuals. -/
def flushOut (vals : List Int) : List OutToken :=
  [OutToken.zlong (minOf vals (avgOf vals)), OutToken.avgBits (avgOf vals)] ++
    (if (residualsOf vals (minOf vals (avgOf vals)) (avgOf vals)).foldl
        max 0 = 0 then
      [OutToken.vint 0]
    else
      [OutToken.vint (unsigned_bits_required
          ((residualsOf vals (minOf vals (avgOf vals)) (avgOf vals)).foldl
            max 0)),
        OutToken.packed (unsigned_bits_required
          ((residualsOf vals (minOf vals (avgOf vals)) (avgOf vals)).foldl
            max 0))
          (residualsOf vals (minOf vals (avgOf vals)) (avgOf vals))])

/-- State of the writer: `values` is the buffered block prefix (its length
is the source's `off`; the source's fixed buffer capacity is `blockSize`). -/
structure MonotonicBlockPackedWriter where
  blockSize : Nat
  values : List Int
  ord : Nat
  finished : Bool
deriving DecidableEq

/-- Modelled from the spec: `BaseBlockPackedWriter::check_not_finished`
(not under `src/`) fails with an invalid-state condition once the stream is
sealed. -/
def check_not_finished (w : MonotonicBlockPackedWriter) :
    Except String Unit :=
  if w.finished then Except.error "already finished" else Except.ok ()

/-- Model of `MonotonicBlockPackedWriter::add`: reject after `finish`,
flush a full buffer, then append the value and bump the ordinal. The
written bytes go to an in-memory output, modelled by the returned token
list. -/
def add (w : MonotonicBlockPackedWriter) (l : Int) :
    Except String (MonotonicBlockPackedWriter × List OutToken) :=
  match check_not_finished w with
  | Except.error e => Except.error e
  | Except.ok _ =>
    if w.values.length = w.blockSize then
      Except.ok ({ w with values := [l], ord := w.ord + 1 },
        flushOut w.values)
    else
      Except.ok ({ w with values := w.values ++ [l], ord := w.ord + 1 }, [])

/-- Model of `MonotonicBlockPackedWriter::finish`: reject after `finish`,
flush a partial block if present, and seal the stream. -/
def finish (w : MonotonicBlockPackedWriter) :
    Except String (MonotonicBlockPackedWriter × List OutToken) :=
  match check_not_finished w with
  | Except.error e => Except.error e
  | Except.ok _ =>
    Except.ok ({ w with values := [], finished := true },
      if 0 < w.values.length then flushOut w.values else [])

/-- A fresh writer over the given block size. -/
def newWriter (blockSize : Nat) : MonotonicBlockPackedWriter :=
  ⟨blockSize, [], 0, false⟩

/-- Append a whole list of values, concatenating the emitted tokens. -/
def addAll (w : MonotonicBlockPackedWriter) :
    List Int → Except String (MonotonicBlockPackedWriter × List OutToken)
  | [] => Except.ok (w, [])
  | l :: rest =>
    match add w l with
    | Except.error e => Except.error e
    | Except.ok (w1, out1) =>
      match addAll w1 rest with
      | Except.error e => Except.error e
      | Except.ok (w2, out2) => Except.ok (w2, out1 ++ out2)

/-- Append all values to a fresh writer and seal it, returning the whole
encoded stream. -/
def run (blockSize : Nat) (input : List Int) :
    Except String (List OutToken) :=
  match addAll (newWriter blockSize) input with
  | Except.error e => Except.error e
  | Except.ok (w, out1) =>
    match finish w with
    | Except.error e => Except.error e
    | Except.ok (_, out2) => Except.ok (out1 ++ out2)

/-- The residual bit-width tokens of an encoded stream, in block order. -/
def vintWidths (out : List OutToken) : List Nat :=
  out.filterMap (fun t => match t with
    | OutToken.vint w => some w
    | _ => none)

/-- Whether any residual body was written. -/
def hasPacked (out : List OutToken) : Bool :=
  out.any (fun t => match t with
    | OutToken.packed _ _ => true
    | _ => false)

end MonotonicBlockPacked

namespace MonotonicBlockPacked

theorem expected_sub (m1 m2 : Int) (avg : F32Model.Q) (i : Nat) :
    expected m1 avg i - m1 = expected m2 avg i - m2 := by
  simp [expected]

theorem f32round_zero_num (x : F32Model.Q) (h : x.num = 0) :
    F32Model.f32round x = ⟨0, 1⟩ := by
  rw [F32Model.f32round, if_pos h]

theorem mulQ_num_zero_right (a b : F32Model.Q) (h : b.num = 0) :
    (F32Model.mulQ a b).num = 0 := by
  simp [F32Model.mulQ, h]

theorem f32ofInt_zero : F32Model.f32ofInt 0 = ⟨0, 1⟩ :=
  f32round_zero_num _ rfl

/-- Position 0 is always predicted exactly at `min`: the `f32` product
`avg * 0` is an exact zero and rounds to 0. -/
theorem expected_idx_zero (m : Int) (avg : F32Model.Q) :
    expected m avg 0 = m := by
  have h1 : F32Model.f32ofInt 0 = ⟨0, 1⟩ := f32ofInt_zero
  have h2 : F32Model.f32mul avg ⟨0, 1⟩ = ⟨0, 1⟩ :=
    f32round_zero_num _ (mulQ_num_zero_right _ _ rfl)
  have h3 : F32Model.roundQ ⟨0, 1⟩ = 0 := by decide
  rw [expected]
  simp only [Nat.cast_zero]
  rw [h1, h2, h3, add_zero]

/-- The adjustment loop only ever decreases `min`. -/
theorem adjustMin_le (avg : F32Model.Q) :
    ∀ (l : List (Nat × Int)) (m : Int), adjustMin avg m l ≤ m := by
  intro l
  induction l with
  | nil => intro m; simp [adjustMin]
  | cons q rest ih =>
    intro m
    obtain ⟨i, a⟩ := q
    simp only [adjustMin]
    by_cases hc : a < expected m avg i
    · rw [if_pos hc]
      have h1 := ih (m - (expected m avg i - a))
      have h2 := expected_sub (m - (expected m avg i - a)) m avg i
      omega
    · rw [if_neg hc]
      exact ih m

/-- After the adjustment loop, every listed position is predicted at or
below its actual value. -/
theorem adjustMin_bound (avg : F32Model.Q) :
    ∀ (l : List (Nat × Int)) (m : Int), ∀ p ∈ l,
      expected (adjustMin avg m l) avg p.1 ≤ p.2 := by
  intro l
  induction l with
  | nil => intro m p hp; cases hp
  | cons q rest ih =>
    intro m p hp
    obtain ⟨i, a⟩ := q
    simp only [adjustMin]
    rcases List.mem_cons.mp hp with hpe | hpr
    · subst hpe
      dsimp only
      by_cases hc : a < expected m avg i
      · rw [if_pos hc]
        have h1 := adjustMin_le avg rest (m - (expected m avg i - a))
        have h2 := expected_sub (adjustMin avg (m - (expected m avg i - a))
          rest) (m - (expected m avg i - a)) avg i
        have h3 := expected_sub (m - (expected m avg i - a)) m avg i
        omega
      · rw [if_neg hc]
        have h1 := adjustMin_le avg rest m
        have h2 := expected_sub (adjustMin avg m rest) m avg i
        omega
    · by_cases hc : a < expected m avg i
      · rw [if_pos hc]
        exact ih (m - (expected m avg i - a)) p hpr
      · rw [if_neg hc]
        exact ih m p hpr

theorem le_foldl_max : ∀ (l : List Int) (acc : Int), acc ≤ l.foldl max acc := by
  intro l
  induction l with
  | nil => intro acc; exact le_refl acc
  | cons x xs ih =>
    intro acc
    calc acc ≤ max acc x := le_max_left acc x
    _ ≤ (x :: xs).foldl max acc := ih (max acc x)

/-- Every residual index is covered: position 0 by `adjustMin_le` together
with `expected_idx_zero`, positions `1..n` by `adjustMin_bound` through the
`(index, value)` zip that the loop walks. -/
theorem residual_nonneg (vals : List Int) (h : vals ≠ []) :
    ∀ i, i < vals.length →
      expected (minOf vals (avgOf vals)) (avgOf vals) i ≤ vals.getD i 0 := by
  intro i hi
  rcases Nat.eq_zero_or_pos i with hz | hpos
  · subst hz
    have hhead : vals.getD 0 0 = vals.headD 0 := by
      cases vals with
      | nil => exact absurd rfl h
      | cons x xs => rfl
    rw [expected_idx_zero, hhead]
    exact adjustMin_le (avgOf vals) _ _
  · have hlen1 : 1 ≤ vals.length := by omega
    have hlenzip : (List.zip (List.range' 1 (vals.length - 1))
        vals.tail).length = vals.length - 1 := by
      rw [List.length_zip, List.length_range', List.length_tail]
      omega
    have hidx : i - 1 < (List.zip (List.range' 1 (vals.length - 1))
        vals.tail).length := by omega
    have hr : i - 1 < (List.range' 1 (vals.length - 1)).length := by
      rw [List.length_range']; omega
    have ht : i - 1 < vals.tail.length := by
      rw [List.length_tail]; omega
    have hget : (List.zip (List.range' 1 (vals.length - 1))
        vals.tail)[i - 1] = (i, vals.getD i 0) := by
      rw [List.getElem_zip, List.getElem_range', List.getElem_tail]
      have hidx2 : i - 1 + 1 = i := by omega
      have hfst : 1 + 1 * (i - 1) = i := by omega
      simp only [hidx2, hfst]
      rw [List.getD_eq_getElem vals 0 hi]
    have hmem : (i, vals.getD i 0) ∈ List.zip (List.range' 1
        (vals.length - 1)) vals.tail := by
      rw [← hget]
      exact List.getElem_mem hidx
    exact adjustMin_bound (avgOf vals) _ _ (i, vals.getD i 0) hmem

end MonotonicBlockPacked

/-- C7: calling `add` or `finish` on a `MonotonicBlockPackedWriter` after
`finish` fails with the invalid-state error; before `finish`, `add` never
fails — for any value, monotonic or not (there is no runtime monotonicity
check) — and each successful `add` increases the logical ordinal by one. -/
theorem monotonic_writer_sealed_state (w :
    MonotonicBlockPacked.MonotonicBlockPackedWriter) (l : Int) :
    (w.finished = true →
      MonotonicBlockPacked.add w l = Except.error "already finished" ∧
      MonotonicBlockPacked.finish w = Except.error "already finished") ∧
    (w.finished = false →
      ∃ w2 out, MonotonicBlockPacked.add w l = Except.ok (w2, out) ∧
        w2.ord = w.ord + 1) := by
  constructor
  · intro hf
    rw [MonotonicBlockPacked.add, MonotonicBlockPacked.finish,
      MonotonicBlockPacked.check_not_finished, if_pos hf]
    exact ⟨rfl, rfl⟩
  · intro hf
    rw [MonotonicBlockPacked.add, MonotonicBlockPacked.check_not_finished,
      if_neg (by rw [hf]; exact Bool.false_ne_true)]
    by_cases hfull : w.values.length = w.blockSize
    · rw [if_pos hfull]
      exact ⟨_, _, rfl, rfl⟩
    · rw [if_neg hfull]
      exact ⟨_, _, rfl, rfl⟩

/-- Witness for C7: a sealed writer rejects `add` and `finish`; a fresh
writer accepts an arbitrary (even negative, non-monotonic) value and bumps
its ordinal to 1. -/
theorem monotonic_writer_sealed_state_witness :
    (MonotonicBlockPacked.add ⟨4, [], 0, true⟩ (-5) =
        Except.error "already finished" ∧
      MonotonicBlockPacked.finish ⟨4, [], 0, true⟩ =
        Except.error "already finished") ∧
    (∃ w2 out, MonotonicBlockPacked.add
        (MonotonicBlockPacked.newWriter 4) (-5) = Except.ok (w2, out) ∧
      w2.ord = (MonotonicBlockPacked.newWriter 4).ord + 1) :=
  ⟨(monotonic_writer_sealed_state ⟨4, [], 0, true⟩ (-5)).1 rfl,
   (monotonic_writer_sealed_state (MonotonicBlockPacked.newWriter 4)
     (-5)).2 rfl⟩

/-- C8: for every flushed block of `n ≥ 1` buffered values, after the
min-adjustment loop completes, every residual
`values[i] - expected(min, avg, i)` is non-negative — so the maximal delta
is non-negative and the packed residuals are all unsigned — regardless of
the block's contents. -/
theorem monotonic_flush_residuals_nonneg (vals : List Int)
    (h : vals ≠ []) :
    (∀ i, i < vals.length →
      0 ≤ vals.getD i 0 - MonotonicBlockPacked.expected
        (MonotonicBlockPacked.minOf vals (MonotonicBlockPacked.avgOf vals))
        (MonotonicBlockPacked.avgOf vals) i) ∧
    (∀ x ∈ MonotonicBlockPacked.residualsOf vals
        (MonotonicBlockPacked.minOf vals (MonotonicBlockPacked.avgOf vals))
        (MonotonicBlockPacked.avgOf vals), 0 ≤ x) ∧
    0 ≤ (MonotonicBlockPacked.residualsOf vals
        (MonotonicBlockPacked.minOf vals (MonotonicBlockPacked.avgOf vals))
        (MonotonicBlockPacked.avgOf vals)).foldl max 0 := by
  have hmain := MonotonicBlockPacked.residual_nonneg vals h
  refine ⟨fun i hi => by have := hmain i hi; omega, ?_, ?_⟩
  · intro x hx
    rw [List.mem_iff_getElem] at hx
    obtain ⟨i, hilen, hieq⟩ := hx
    have hlen : i < vals.length := by
      have h2 := hilen
      simp only [MonotonicBlockPacked.residualsOf, List.length_mapIdx] at h2
      exact h2
    simp only [MonotonicBlockPacked.residualsOf, List.getElem_mapIdx] at hieq
    have := hmain i hlen
    rw [List.getD_eq_getElem vals 0 hlen] at this
    omega
  · exact MonotonicBlockPacked.le_foldl_max _ 0

/-- Witness for C8 on the block `(2, 4, 7)` (whose prediction line
overshoots position 1, forcing a min adjustment): all residuals are
non-negative. -/
theorem monotonic_flush_residuals_nonneg_witness :
    (∀ i, i < ([2, 4, 7] : List Int).length →
      0 ≤ ([2, 4, 7] : List Int).getD i 0 - MonotonicBlockPacked.expected
        (MonotonicBlockPacked.minOf [2, 4, 7]
          (MonotonicBlockPacked.avgOf [2, 4, 7]))
        (MonotonicBlockPacked.avgOf [2, 4, 7]) i) ∧
    (∀ x ∈ MonotonicBlockPacked.residualsOf [2, 4, 7]
        (MonotonicBlockPacked.minOf [2, 4, 7]
          (MonotonicBlockPacked.avgOf [2, 4, 7]))
        (MonotonicBlockPacked.avgOf [2, 4, 7]), 0 ≤ x) ∧
    0 ≤ (MonotonicBlockPacked.residualsOf [2, 4, 7]
        (MonotonicBlockPacked.minOf [2, 4, 7]
          (MonotonicBlockPacked.avgOf [2, 4, 7]))
        (MonotonicBlockPacked.avgOf [2, 4, 7])).foldl max 0 :=
  monotonic_flush_residuals_nonneg [2, 4, 7] (by decide)

namespace MonotonicBlockPacked

theorem divQ_num_zero_left (a b : F32Model.Q) (h : a.num = 0) :
    (F32Model.divQ a b).num = 0 := by
  rw [F32Model.divQ]
  split_ifs <;> simp [h]

theorem mulQ_num_zero_left (a b : F32Model.Q) (h : a.num = 0) :
    (F32Model.mulQ a b).num = 0 := by
  simp [F32Model.mulQ, h]

theorem getLastD_replicate (v : Int) :
    ∀ (m : Nat) (d : Int), (List.replicate m v).getLastD d =
      if m = 0 then d else v := by
  intro m
  induction m with
  | zero => intro d; rfl
  | succ m ih =>
    intro d
    rw [List.replicate_succ, List.getLastD_cons, ih v]
    simp

theorem headD_replicate (v : Int) (m : Nat) (hm : 1 ≤ m) :
    (List.replicate m v).headD 0 = v := by
  cases m with
  | zero => omega
  | succ m => rfl

/-- A constant block's `avg` is the exact `f32` zero. -/
theorem avgOf_replicate (v : Int) (m : Nat) (hm : 1 ≤ m) :
    avgOf (List.replicate m v) = ⟨0, 1⟩ := by
  rw [avgOf]
  by_cases h1 : (List.replicate m v).length = 1
  · rw [if_pos h1]
  · rw [if_neg h1]
    rw [getLastD_replicate v m 0, if_neg (by omega : ¬ m = 0),
      headD_replicate v m hm, sub_self]
    rw [F32Model.f32div, f32ofInt_zero]
    exact f32round_zero_num _ (divQ_num_zero_left _ _ rfl)

/-- With a zero average the predictor is constantly `min`. -/
theorem expected_zero_avg (m : Int) (i : Nat) :
    expected m ⟨0, 1⟩ i = m := by
  have h2 : F32Model.f32mul ⟨0, 1⟩ (F32Model.f32ofInt i) = ⟨0, 1⟩ :=
    f32round_zero_num _ (mulQ_num_zero_left _ _ rfl)
  have h3 : F32Model.roundQ ⟨0, 1⟩ = 0 := by decide
  rw [expected, h2, h3, add_zero]

theorem adjustMin_const (v : Int) :
    ∀ l : List (Nat × Int), (∀ p ∈ l, p.2 = v) →
      adjustMin ⟨0, 1⟩ v l = v := by
  intro l
  induction l with
  | nil => intro hl; rfl
  | cons q rest ih =>
    intro hl
    obtain ⟨i, a⟩ := q
    have ha : a = v := hl (i, a) (List.mem_cons_self _ _)
    simp only [adjustMin]
    rw [expected_zero_avg v i, if_neg (by omega)]
    exact ih (fun p hp => hl p (List.mem_cons_of_mem _ hp))

theorem minOf_replicate (v : Int) (m : Nat) (hm : 1 ≤ m) :
    minOf (List.replicate m v) ⟨0, 1⟩ = v := by
  rw [minOf, headD_replicate v m hm]
  apply adjustMin_const
  intro p hp
  obtain ⟨pi, pa⟩ := p
  have hmem := (List.of_mem_zip hp).2
  rw [List.tail_replicate] at hmem
  exact List.eq_of_mem_replicate hmem

theorem foldl_max_of_le : ∀ (l : List Int) (acc : Int),
    (∀ x ∈ l, x ≤ acc) → l.foldl max acc = acc := by
  intro l
  induction l with
  | nil => intro acc hl; rfl
  | cons x xs ih =>
    intro acc hl
    have hx : x ≤ acc := hl x (List.mem_cons_self _ _)
    have hmax : max acc x = acc := max_eq_left hx
    show xs.foldl max (max acc x) = acc
    rw [hmax]
    exact ih acc (fun y hy => hl y (List.mem_cons_of_mem _ hy))

theorem residualsOf_replicate_max (v : Int) (m : Nat) :
    (residualsOf (List.replicate m v) v ⟨0, 1⟩).foldl max 0 = 0 := by
  apply foldl_max_of_le
  intro x hx
  rw [List.mem_iff_getElem] at hx
  obtain ⟨i, hilen, hieq⟩ := hx
  simp only [residualsOf, List.getElem_mapIdx, List.getElem_replicate]
    at hieq
  rw [expected_zero_avg v i] at hieq
  omega

/-- A constant block flushes as `min`, the zero average, and residual bit
width 0 with no packed body. -/
theorem flushOut_replicate (v : Int) (m : Nat) (hm : 1 ≤ m) :
    flushOut (List.replicate m v) =
      [OutToken.zlong v, OutToken.avgBits ⟨0, 1⟩, OutToken.vint 0] := by
  rw [flushOut, avgOf_replicate v m hm, minOf_replicate v m hm,
    if_pos (residualsOf_replicate_max v m)]
  rfl

theorem addAll_replicate (bs : Nat) (hbs : 1 ≤ bs) (v : Int) :
    ∀ (k m o : Nat), m ≤ bs →
    ∃ (m2 : Nat) (out : List OutToken), m2 ≤ bs ∧
      addAll ⟨bs, List.replicate m v, o, false⟩ (List.replicate k v) =
        Except.ok (⟨bs, List.replicate m2 v, o + k, false⟩, out) ∧
      (∀ w ∈ vintWidths out, w = 0) ∧ hasPacked out = false := by
  intro k
  induction k with
  | zero =>
    intro m o hm
    refine ⟨m, [], hm, rfl, ?_, rfl⟩
    intro w hw
    exact absurd hw (List.not_mem_nil w)
  | succ k ih =>
    intro m o hm
    rw [List.replicate_succ, addAll]
    by_cases hfull : m = bs
    · have hadd : add ⟨bs, List.replicate m v, o, false⟩ v =
          Except.ok (⟨bs, List.replicate 1 v, o + 1, false⟩,
            flushOut (List.replicate m v)) := by
        rw [add, check_not_finished]
        simp only [if_neg Bool.false_ne_true]
        rw [if_pos (by rw [List.length_replicate]; exact hfull)]
        rw [List.replicate_one]
      rw [hadd]
      obtain ⟨m2, out2, hm2, haddAll, hw2, hp2⟩ := ih 1 (o + 1) hbs
      dsimp only
      rw [haddAll]
      dsimp only
      refine ⟨m2, flushOut (List.replicate m v) ++ out2, hm2, ?_, ?_, ?_⟩
      · have ho : o + 1 + k = o + (k + 1) := by omega
        rw [ho]
      · intro w hw
        rw [flushOut_replicate v m (by omega), vintWidths,
          List.filterMap_append] at hw
        rcases List.mem_append.mp hw with h1 | h1
        · simp only [List.filterMap] at h1
          simp at h1
          omega
        · exact hw2 w h1
      · rw [flushOut_replicate v m (by omega), hasPacked, List.any_append]
        rw [hasPacked] at hp2
        rw [hp2]
        rfl
    · have hadd : add ⟨bs, List.replicate m v, o, false⟩ v =
          Except.ok (⟨bs, List.replicate (m + 1) v, o + 1, false⟩, []) := by
        rw [add, check_not_finished]
        simp only [if_neg Bool.false_ne_true]
        rw [if_neg (by rw [List.length_replicate]; exact hfull)]
        rw [← List.replicate_succ']
      rw [hadd]
      obtain ⟨m2, out2, hm2, haddAll, hw2, hp2⟩ := ih (m + 1) (o + 1)
        (by omega)
      dsimp only
      rw [haddAll]
      dsimp only
      refine ⟨m2, [] ++ out2, hm2, ?_, ?_, ?_⟩
      · have ho : o + 1 + k = o + (k + 1) := by omega
        rw [ho]
      · intro w hw
        rw [List.nil_append] at hw
        exact hw2 w hw
      · rw [List.nil_append]
        exact hp2

end MonotonicBlockPacked

/-- C9 (amended): a constant sequence (arithmetic with step 0) of any
length and any block size encodes every flushed block with residual bit
width 0 and no residual body. The original claim — width 0 for every
constant-step sequence — fails for steps whose `f32` average rounds
inexactly; see the counterexample. -/
theorem monotonic_writer_const_zero_width (bs : Nat) (hbs : 1 ≤ bs)
    (v : Int) (k : Nat) :
    ∃ out, MonotonicBlockPacked.run bs (List.replicate k v) =
        Except.ok out ∧
      (∀ w ∈ MonotonicBlockPacked.vintWidths out, w = 0) ∧
      MonotonicBlockPacked.hasPacked out = false := by
  obtain ⟨m2, out1, hm2, haddAll, hw1, hp1⟩ :=
    MonotonicBlockPacked.addAll_replicate bs hbs v k 0 0 (by omega)
  have hnew : MonotonicBlockPacked.newWriter bs =
      ⟨bs, List.replicate 0 v, 0, false⟩ := rfl
  rw [MonotonicBlockPacked.run, hnew, haddAll]
  dsimp only
  have hfin : MonotonicBlockPacked.finish
      ⟨bs, List.replicate m2 v, 0 + k, false⟩ =
      Except.ok (⟨bs, [], 0 + k, true⟩,
        if 0 < (List.replicate m2 v).length then
          MonotonicBlockPacked.flushOut (List.replicate m2 v) else []) := by
    rw [MonotonicBlockPacked.finish, MonotonicBlockPacked.check_not_finished]
    simp only [if_neg Bool.false_ne_true]
  rw [hfin]
  dsimp only
  cases m2 with
  | zero =>
    refine ⟨out1 ++ [], rfl, ?_, ?_⟩
    · intro w hw
      rw [List.append_nil] at hw
      exact hw1 w hw
    · rw [List.append_nil]; exact hp1
  | succ m =>
    rw [if_pos (by rw [List.length_replicate]; omega),
      MonotonicBlockPacked.flushOut_replicate v (m + 1) (by omega)]
    refine ⟨_, rfl, ?_, ?_⟩
    · intro w hw
      rw [MonotonicBlockPacked.vintWidths, List.filterMap_append] at hw
      rcases List.mem_append.mp hw with h1 | h1
      · exact hw1 w h1
      · simp only [List.filterMap] at h1
        simp at h1
        omega
    · rw [MonotonicBlockPacked.hasPacked, List.any_append]
      rw [MonotonicBlockPacked.hasPacked] at hp1
      rw [hp1]
      rfl

/-- Witness for C9 (amended) at block size 2 with five copies of 7: three
blocks, all with width 0 and no body. -/
theorem monotonic_writer_const_zero_width_witness :
    ∃ out, MonotonicBlockPacked.run 2 (List.replicate 5 7) =
        Except.ok out ∧
      (∀ w ∈ MonotonicBlockPacked.vintWidths out, w = 0) ∧
      MonotonicBlockPacked.hasPacked out = false :=
  monotonic_writer_const_zero_width 2 (by decide) 7 5

/-- C9 counterexample: the sequence `(0, 33554433)` is a perfect arithmetic
progression (constant step `33554433 = 2^25 + 1`), yet its flushed block is
written with residual bit width 1 and a packed body, because the step
rounds to `33554432` in `f32` and position 1 is under-predicted by 1. -/
theorem monotonic_writer_arith_nonzero_width_counterexample :
    MonotonicBlockPacked.run 64 [0, 33554433] = Except.ok
      [MonotonicBlockPacked.OutToken.zlong 0,
        MonotonicBlockPacked.OutToken.avgBits ⟨33554432, 1⟩,
        MonotonicBlockPacked.OutToken.vint 1,
        MonotonicBlockPacked.OutToken.packed 1 [0, 1]] ∧
    MonotonicBlockPacked.vintWidths
      [MonotonicBlockPacked.OutToken.zlong 0,
        MonotonicBlockPacked.OutToken.avgBits ⟨33554432, 1⟩,
        MonotonicBlockPacked.OutToken.vint 1,
        MonotonicBlockPacked.OutToken.packed 1 [0, 1]] = [1] ∧
    MonotonicBlockPacked.hasPacked
      [MonotonicBlockPacked.OutToken.zlong 0,
        MonotonicBlockPacked.OutToken.avgBits ⟨33554432, 1⟩,
        MonotonicBlockPacked.OutToken.vint 1,
        MonotonicBlockPacked.OutToken.packed 1 [0, 1]] = true := by
  refine ⟨rfl, rfl, rfl⟩

namespace MultiSorterModel

/-- Modelled from the spec: the sort-field value types of the sort-order
descriptor (64-bit integer, 32-bit integer, single/double float), together
with `string` (explicitly unsupported for cross-segment sort) and
`score`/`doc` as representatives of the remaining kinds that fall to the
unhandled-type arm (the `SortFieldType` enum source is not under `src/`). -/
inductive SortFieldType where
  | score
  | doc
  | string
  | int
  | float
  | long
  | double
deriving DecidableEq

def typeName : SortFieldType → String
  | SortFieldType.score => "Score"
  | SortFieldType.doc => "Doc"
  | SortFieldType.string => "String"
  | SortFieldType.int => "Int"
  | SortFieldType.float => "Float"
  | SortFieldType.long => "Long"
  | SortFieldType.double => "Double"

/-- Modelled from the spec: the optional missing-value substitute attached
to a sort field (a variant value in the source, with partial typed
extractors). `f64` payloads are carried as exact rationals; no arithmetic
is performed on them here, only decoding and comparison. -/
inductive VariantValue where
  | vLong (v : Int)
  | vInt (v : Int)
  | vDouble (v : F32Model.Q)
  | vFloat (v : F32Model.Q)
deriving DecidableEq

def VariantValue.get_long : VariantValue → Option Int
  | VariantValue.vLong v => some v
  | _ => none

def VariantValue.get_int : VariantValue → Option Int
  | VariantValue.vInt v => some v
  | _ => none

def VariantValue.get_double : VariantValue → Option F32Model.Q
  | VariantValue.vDouble v => some v
  | _ => none

/-- The `f32` missing value widened to `f64` (`as f64` is exact). -/
def VariantValue.get_float : VariantValue → Option F32Model.Q
  | VariantValue.vFloat v => some v
  | _ => none

/-- A sort-order directive: field name, value type, reverse flag, optional
missing-value substitute (spec's sort-order descriptor). -/
structure SortField where
  field : String
  fieldType : SortFieldType
  reverse : Bool
  missingValue : Option VariantValue

/-- One segment reader as the merge consumes it: its doc count, liveness
bits, and per-field presence bits and numeric doc values (accessors are
total; I/O failure is out of scope of the claims). -/
structure ReaderModel where
  maxDoc : Nat
  liveDocs : Nat → Bool
  docsWithField : String → Nat → Bool
  numericValues : String → Nat → Int

/-- Outcome of running a fallible routine: a value, a recoverable `Err`
(the `Result::Err` path), or a panic (`unimplemented!`/`unreachable!`/
`unwrap` on `None`). -/
inductive RunResult (α : Type) where
  | ok (val : α)
  | err (msg : String)
  | panicked
deriving DecidableEq

/-- Rust's `i64::cmp`. -/
def i64Cmp (a b : Int) : Ordering :=
  if a < b then Ordering.lt else if a = b then Ordering.eq else Ordering.gt

/-- Rust's `f64::partial_cmp(..).unwrap()` on the exact-rational model of
non-NaN doubles (valid for positive denominators, which every decoded value
in the claims has). -/
def qCmp (a b : F32Model.Q) : Ordering :=
  if a.num * b.den < b.num * a.den then Ordering.lt
  else if a.num * b.den = b.num * a.den then Ordering.eq
  else Ordering.gt

/-- Model of `LongCrossReaderComparator`. -/
structure LongCrossReaderComparator where
  docsWithFields : List (Nat → Bool)
  values : List (Nat → Int)
  missingValue : Int
  reverse : Bool

/-- Model of `LongCrossReaderComparator::compare`: substitute the missing
value for absent docs, compare as `i64`, and reverse the raw comparison
for non-reversed fields. -/
def LongCrossReaderComparator.compare (c : LongCrossReaderComparator)
    (idx1 : Nat) (docId1 : Nat) (idx2 : Nat) (docId2 : Nat) : Ordering :=
  let value1 := if (c.docsWithFields.getD idx1 (fun _ => false)) docId1 then
    (c.values.getD idx1 (fun _ => 0)) docId1 else c.missingValue
  let value2 := if (c.docsWithFields.getD idx2 (fun _ => false)) docId2 then
    (c.values.getD idx2 (fun _ => 0)) docId2 else c.missingValue
  let res := i64Cmp value1 value2
  if !c.reverse then res.swap else res

/-- Model of `DoubleCrossReaderComparator`. -/
structure DoubleCrossReaderComparator where
  docsWithFields : List (Nat → Bool)
  values : List (Nat → Int)
  missingValue : F32Model.Q
  reverse : Bool

/-- Model of `DoubleCrossReaderComparator::compare`: decode the stored
64-bit pattern through `from_bits` for present docs, substitute the
missing value for absent ones, compare as `f64`. The IEEE bit decoding
`f64::from_bits` is kept as the parameter `fromBits`. -/
def DoubleCrossReaderComparator.compare (fromBits : Int → F32Model.Q)
    (c : DoubleCrossReaderComparator) (idx1 : Nat) (docId1 : Nat)
    (idx2 : Nat) (docId2 : Nat) : Ordering :=
  let value1 := if (c.docsWithFields.getD idx1 (fun _ => false)) docId1 then
    fromBits ((c.values.getD idx1 (fun _ => 0)) docId1) else c.missingValue
  let value2 := if (c.docsWithFields.getD idx2 (fun _ => false)) docId2 then
    fromBits ((c.values.getD idx2 (fun _ => 0)) docId2) else c.missingValue
  let res := qCmp value1 value2
  if !c.reverse then res.swap else res

inductive CrossReaderComparatorEnum where
  | long (c : LongCrossReaderComparator)
  | double (c : DoubleCrossReaderComparator)

def CrossReaderComparatorEnum.compare (fromBits : Int → F32Model.Q) :
    CrossReaderComparatorEnum → Nat → Nat → Nat → Nat → Ordering
  | CrossReaderComparatorEnum.long c => c.compare
  | CrossReaderComparatorEnum.double c => c.compare fromBits

/-- Model of `MultiSorter::get_comparator`: `String` hits `unimplemented!`
(a panic); `Long`/`Int` and `Double`/`Float` build the numeric cross-reader
comparators, substituting 0 resp. 0.0 when no missing value is configured
(and panicking on a mis-typed `unwrap`); every other type bails with the
`IllegalArgument` unhandled-type error. -/
def get_comparator (readers : List ReaderModel) (sort_field : SortField) :
    RunResult CrossReaderComparatorEnum :=
  match sort_field.fieldType with
  | SortFieldType.string => RunResult.panicked
  | SortFieldType.long | SortFieldType.int =>
    let docs_with_fields := readers.map
      (fun r => r.docsWithField sort_field.field)
    let values := readers.map (fun r => r.numericValues sort_field.field)
    (match sort_field.missingValue with
     | some missing =>
       match (if sort_field.fieldType = SortFieldType.long then
           missing.get_long else missing.get_int) with
       | some v => RunResult.ok (CrossReaderComparatorEnum.long
           ⟨docs_with_fields, values, v, sort_field.reverse⟩)
       | none => RunResult.panicked
     | none => RunResult.ok (CrossReaderComparatorEnum.long
         ⟨docs_with_fields, values, 0, sort_field.reverse⟩))
  | SortFieldType.double | SortFieldType.float =>
    let docs_with_fields := readers.map
      (fun r => r.docsWithField sort_field.field)
    let values := readers.map (fun r => r.numericValues sort_field.field)
    (match sort_field.missingValue with
     | some missing =>
       match (if sort_field.fieldType = SortFieldType.double then
           missing.get_double else missing.get_float) with
       | some v => RunResult.ok (CrossReaderComparatorEnum.double
           ⟨docs_with_fields, values, v, sort_field.reverse⟩)
       | none => RunResult.panicked
     | none => RunResult.ok (CrossReaderComparatorEnum.double
         ⟨docs_with_fields, values, ⟨0, 1⟩, sort_field.reverse⟩))
  | t => RunResult.err ("unhandled SortField.getType()=" ++ typeName t)

end MultiSorterModel

namespace MultiSorterModel

/-- Rust's `usize::cmp` / `i32::cmp` on naturals. -/
def natCmp (a b : Nat) : Ordering :=
  if a < b then Ordering.lt else if a = b then Ordering.eq else Ordering.gt

/-- A heap entry of the k-way merge: one per segment, tracking the current
head document (`live_docs` is looked up through the ambient reader list,
and the comparator slice is ambient as well). -/
structure LeafAndDocId where
  readerIndex : Nat
  maxDoc : Nat
  docId : Nat
deriving DecidableEq

/-- Model of `impl Ord for LeafAndDocId` (the comment in the source reads
"reverse ord for BinaryHeap"): walk the comparator chain evaluating
`compare(other, self)` and return the first non-equal result reversed;
tie-break on `reader_index`, then `doc_id`, in natural (non-reversed)
order. -/
def entryCmp (fromBits : Int → F32Model.Q)
    (cs : List CrossReaderComparatorEnum)
    (self other : LeafAndDocId) : Ordering :=
  match cs.findSome? (fun c =>
    let cmp := c.compare fromBits other.readerIndex other.docId
      self.readerIndex self.docId
    if cmp = Ordering.eq then none else some cmp.swap) with
  | some o => o
  | none =>
    if self.readerIndex ≠ other.readerIndex then
      natCmp self.readerIndex other.readerIndex
    else natCmp self.docId other.docId

/-- Model of `impl PartialOrd for LeafAndDocId`, which the source defines
as `partial_cmp(self, other) = Some(other.cmp(self))` — the reverse of its
own `Ord`. Rust's `BinaryHeap` sift routines compare elements with the
`<=`/`>=` operators, which for this type are derived from `partial_cmp`,
so the heap is ordered by this comparison and `pop` removes its maximum. -/
def entryPCmp (fromBits : Int → F32Model.Q)
    (cs : List CrossReaderComparatorEnum)
    (a b : LeafAndDocId) : Ordering :=
  entryCmp fromBits cs b a

/-- Model of `BinaryHeap::pop` over the order above: remove the (leftmost)
maximum element. Over a queue whose entries carry pairwise distinct
`(reader_index, doc_id)` keys — the merge invariant — the order is total
with no ties, so the popped element does not depend on arrival order. -/
def popMax (cmpf : LeafAndDocId → LeafAndDocId → Ordering) :
    List LeafAndDocId → Option (LeafAndDocId × List LeafAndDocId)
  | [] => none
  | e :: rest =>
    match popMax cmpf rest with
    | none => some (e, [])
    | some (m, rem) =>
      if cmpf e m = Ordering.lt then some (m, e :: rem) else some (e, rest)

theorem popMax_none_iff (cmpf : LeafAndDocId → LeafAndDocId → Ordering)
    (l : List LeafAndDocId) : popMax cmpf l = none ↔ l = [] := by
  cases l with
  | nil => simp [popMax]
  | cons e rest =>
    simp only [popMax]
    rcases hr : popMax cmpf rest with _ | p
    · simp
    · obtain ⟨m, rem⟩ := p
      dsimp only
      split_ifs <;> simp

theorem popMax_perm (cmpf : LeafAndDocId → LeafAndDocId → Ordering) :
    ∀ (l : List LeafAndDocId) (top : LeafAndDocId)
      (rest : List LeafAndDocId), popMax cmpf l = some (top, rest) →
      List.Perm l (top :: rest) := by
  intro l
  induction l with
  | nil => intro top rest h; cases h
  | cons e tl ih =>
    intro top rest h
    simp only [popMax] at h
    rcases hr : popMax cmpf tl with _ | p
    · rw [hr] at h
      dsimp only at h
      have htl : tl = [] := (popMax_none_iff cmpf tl).mp hr
      subst htl
      simp only [Option.some.injEq, Prod.mk.injEq] at h
      obtain ⟨h1, h2⟩ := h
      subst h1
      subst h2
      exact List.Perm.refl _
    · obtain ⟨m, rem⟩ := p
      rw [hr] at h
      dsimp only at h
      have hperm : List.Perm tl (m :: rem) := ih m rem hr
      by_cases hc : cmpf e m = Ordering.lt
      · rw [if_pos hc] at h
        simp only [Option.some.injEq, Prod.mk.injEq] at h
        obtain ⟨h1, h2⟩ := h
        subst h1
        subst h2
        exact (hperm.cons e).trans (List.Perm.swap _ _ _)
      · rw [if_neg hc] at h
        simp only [Option.some.injEq, Prod.mk.injEq] at h
        obtain ⟨h1, h2⟩ := h
        subst h1
        subst h2
        exact List.Perm.refl _

end MultiSorterModel

namespace MultiSorterModel

/-- The mutable state of the `MultiSorter::sort` merge loop. -/
structure MergeState where
  queue : List LeafAndDocId
  builders : List (List Int)
  mappedDocId : Int
  lastReaderIndex : Nat
  sorted : Bool

/-- One iteration of the merge loop after popping `top`: record the current
global slot in the popped segment's builder, advance the slot counter only
when the popped doc is live, clear `sorted` when segments interleave, and
re-push the entry with its doc id advanced unless its segment is
exhausted. -/
def stepState (live : List (Nat → Bool)) (st : MergeState)
    (top : LeafAndDocId) (rest : List LeafAndDocId) : MergeState :=
  { queue := if top.docId + 1 < top.maxDoc then
      { top with docId := top.docId + 1 } :: rest else rest
    builders := st.builders.set top.readerIndex
      ((st.builders.getD top.readerIndex []) ++ [st.mappedDocId])
    mappedDocId := if (live.getD top.readerIndex (fun _ => false)) top.docId
      then st.mappedDocId + 1 else st.mappedDocId
    lastReaderIndex := top.readerIndex
    sorted := if st.lastReaderIndex > top.readerIndex then false
      else st.sorted }

/-- Remaining work: documents left in the queue plus the queue size. -/
def measureOf (st : MergeState) : Nat :=
  (st.queue.map (fun e => e.maxDoc - e.docId)).sum + st.queue.length

/-- Model of the merge loop of `MultiSorter::sort`: pop until the heap is
empty. -/
def mergeLoop (fromBits : Int → F32Model.Q)
    (cs : List CrossReaderComparatorEnum) (live : List (Nat → Bool))
    (st : MergeState) : MergeState :=
  match hpop : popMax (entryPCmp fromBits cs) st.queue with
  | none => st
  | some (top, rest) => mergeLoop fromBits cs live (stepState live st top rest)
termination_by measureOf st
decreasing_by
  simp only [measureOf, stepState]
  have hp := popMax_perm (entryPCmp fromBits cs) st.queue top rest hpop
  have hlen : st.queue.length = (top :: rest).length := hp.length_eq
  have hsum : (st.queue.map (fun e => e.maxDoc - e.docId)).sum =
      ((top :: rest).map (fun e => e.maxDoc - e.docId)).sum :=
    (hp.map (fun e => e.maxDoc - e.docId)).sum_eq
  simp only [List.map_cons, List.sum_cons, List.length_cons] at hlen hsum
  split_ifs with hpush
  · simp only [List.map_cons, List.sum_cons, List.length_cons]
    omega
  · omega

/-- The initial merge state: one head entry per reader (doc id 0), one
empty builder per reader, global slot counter 0, `sorted` optimistic. -/
def initState (readers : List ReaderModel) : MergeState :=
  { queue := (List.range readers.length).map (fun i =>
      ⟨i, (readers.map (fun r => r.maxDoc)).getD i 0, 0⟩)
    builders := List.replicate readers.length []
    mappedDocId := 0
    lastReaderIndex := 0
    sorted := true }

/-- Run the whole merge loop from the initial state. -/
def mergeRun (fromBits : Int → F32Model.Q)
    (cs : List CrossReaderComparatorEnum) (readers : List ReaderModel) :
    MergeState :=
  mergeLoop fromBits cs (readers.map (fun r => r.liveDocs))
    (initState readers)

/-- Build one cross-reader comparator per sort field, propagating the first
error or panic (the `?` operator in `MultiSorter::sort`). -/
def buildComparators (readers : List ReaderModel) :
    List SortField → RunResult (List CrossReaderComparatorEnum)
  | [] => RunResult.ok []
  | f :: rest =>
    match get_comparator readers f with
    | RunResult.ok c =>
      match buildComparators readers rest with
      | RunResult.ok cs => RunResult.ok (c :: cs)
      | RunResult.err e => RunResult.err e
      | RunResult.panicked => RunResult.panicked
    | RunResult.err e => RunResult.err e
    | RunResult.panicked => RunResult.panicked

/-- Model of `MultiSorter::sort`: build the comparators, run the k-way
merge, and return the per-segment local-to-global maps — an empty list when
the segments were already in order. -/
def sort (fromBits : Int → F32Model.Q) (readers : List ReaderModel)
    (fields : List SortField) : RunResult (List (List Int)) :=
  match buildComparators readers fields with
  | RunResult.err e => RunResult.err e
  | RunResult.panicked => RunResult.panicked
  | RunResult.ok cs =>
    if (mergeRun fromBits cs readers).sorted then RunResult.ok []
    else RunResult.ok (mergeRun fromBits cs readers).builders

end MultiSorterModel

/-- C4 counterexample: a cross-segment sort over a string-typed field does
not fail with a recoverable illegal/unhandled-argument error — it panics
(the `SortFieldType::String` arm of `MultiSorter::get_comparator` is
`unimplemented!()`), so the claim's "recoverable error result, not a
crash" is false on this input. -/
theorem multi_sorter_string_panics_counterexample :
    MultiSorterModel.sort (fun b => (⟨b, 1⟩ : F32Model.Q))
      [⟨1, fun _ => true, fun _ _ => true, fun _ _ => 0⟩]
      [⟨"f", MultiSorterModel.SortFieldType.string, false, none⟩] =
      MultiSorterModel.RunResult.panicked ∧
    ∀ msg, MultiSorterModel.sort (fun b => (⟨b, 1⟩ : F32Model.Q))
      [⟨1, fun _ => true, fun _ _ => true, fun _ _ => 0⟩]
      [⟨"f", MultiSorterModel.SortFieldType.string, false, none⟩] ≠
      MultiSorterModel.RunResult.err msg := by
  refine ⟨rfl, ?_⟩
  intro msg h
  have h1 : MultiSorterModel.sort (fun b => (⟨b, 1⟩ : F32Model.Q))
      [⟨1, fun _ => true, fun _ _ => true, fun _ _ => 0⟩]
      [⟨"f", MultiSorterModel.SortFieldType.string, false, none⟩] =
      MultiSorterModel.RunResult.panicked := rfl
  rw [h1] at h
  exact MultiSorterModel.RunResult.noConfusion h

/-- C4 (amended): a cross-segment merge request whose sort descriptor
contains a string-typed field makes `MultiSorter::sort` panic via
`unimplemented!()` rather than return an error; the remaining unsupported
types (score, doc) do fail with the recoverable `IllegalArgument`
unhandled-type error naming the type. -/
theorem multi_sorter_unsupported_types
    (readers : List MultiSorterModel.ReaderModel)
    (f : MultiSorterModel.SortField) (fromBits : Int → F32Model.Q)
    (rest : List MultiSorterModel.SortField) :
    (f.fieldType = MultiSorterModel.SortFieldType.string →
      MultiSorterModel.get_comparator readers f =
        MultiSorterModel.RunResult.panicked ∧
      MultiSorterModel.sort fromBits readers (f :: rest) =
        MultiSorterModel.RunResult.panicked) ∧
    ((f.fieldType = MultiSorterModel.SortFieldType.score ∨
        f.fieldType = MultiSorterModel.SortFieldType.doc) →
      MultiSorterModel.get_comparator readers f =
        MultiSorterModel.RunResult.err
          ("unhandled SortField.getType()=" ++
            MultiSorterModel.typeName f.fieldType) ∧
      MultiSorterModel.sort fromBits readers (f :: rest) =
        MultiSorterModel.RunResult.err
          ("unhandled SortField.getType()=" ++
            MultiSorterModel.typeName f.fieldType)) := by
  obtain ⟨fname, ftype, frev, fmiss⟩ := f
  constructor
  · intro htype
    simp only at htype
    subst htype
    have hg : MultiSorterModel.get_comparator readers
        ⟨fname, MultiSorterModel.SortFieldType.string, frev, fmiss⟩ =
        MultiSorterModel.RunResult.panicked := rfl
    refine ⟨hg, ?_⟩
    rw [MultiSorterModel.sort]
    rw [MultiSorterModel.buildComparators, hg]
  · intro htype
    simp only at htype
    rcases htype with h | h
    · subst h
      have hg : MultiSorterModel.get_comparator readers
          ⟨fname, MultiSorterModel.SortFieldType.score, frev, fmiss⟩ =
          MultiSorterModel.RunResult.err
            ("unhandled SortField.getType()=" ++ "Score") := rfl
      refine ⟨hg, ?_⟩
      rw [MultiSorterModel.sort]
      rw [MultiSorterModel.buildComparators, hg]
      rfl
    · subst h
      have hg : MultiSorterModel.get_comparator readers
          ⟨fname, MultiSorterModel.SortFieldType.doc, frev, fmiss⟩ =
          MultiSorterModel.RunResult.err
            ("unhandled SortField.getType()=" ++ "Doc") := rfl
      refine ⟨hg, ?_⟩
      rw [MultiSorterModel.sort]
      rw [MultiSorterModel.buildComparators, hg]
      rfl

/-- Witness for C4 (amended): concrete string-typed and score-typed sort
fields over one trivial reader. -/
theorem multi_sorter_unsupported_types_witness :
    (MultiSorterModel.get_comparator
        [⟨1, fun _ => true, fun _ _ => true, fun _ _ => 0⟩]
        ⟨"f", MultiSorterModel.SortFieldType.string, false, none⟩ =
      MultiSorterModel.RunResult.panicked ∧
      MultiSorterModel.sort (fun b => (⟨b, 1⟩ : F32Model.Q))
        [⟨1, fun _ => true, fun _ _ => true, fun _ _ => 0⟩]
        [⟨"f", MultiSorterModel.SortFieldType.string, false, none⟩] =
      MultiSorterModel.RunResult.panicked) ∧
    (MultiSorterModel.get_comparator
        [⟨1, fun _ => true, fun _ _ => true, fun _ _ => 0⟩]
        ⟨"g", MultiSorterModel.SortFieldType.score, false, none⟩ =
      MultiSorterModel.RunResult.err
        ("unhandled SortField.getType()=" ++
          MultiSorterModel.typeName MultiSorterModel.SortFieldType.score) ∧
      MultiSorterModel.sort (fun b => (⟨b, 1⟩ : F32Model.Q))
        [⟨1, fun _ => true, fun _ _ => true, fun _ _ => 0⟩]
        [⟨"g", MultiSorterModel.SortFieldType.score, false, none⟩] =
      MultiSorterModel.RunResult.err
        ("unhandled SortField.getType()=" ++
          MultiSorterModel.typeName MultiSorterModel.SortFieldType.score)) :=
  ⟨(multi_sorter_unsupported_types
      [⟨1, fun _ => true, fun _ _ => true, fun _ _ => 0⟩]
      ⟨"f", MultiSorterModel.SortFieldType.string, false, none⟩
      (fun b => (⟨b, 1⟩ : F32Model.Q)) []).1 rfl,
   (multi_sorter_unsupported_types
      [⟨1, fun _ => true, fun _ _ => true, fun _ _ => 0⟩]
      ⟨"g", MultiSorterModel.SortFieldType.score, false, none⟩
      (fun b => (⟨b, 1⟩ : F32Model.Q)) []).2 (Or.inl rfl)⟩

namespace MultiSorterModel

theorem getD_set_self_of_lt {α : Type} (l : List α) (i : Nat) (x d : α)
    (h : i < l.length) : (l.set i x).getD i d = x := by
  rw [List.getD_eq_getElem _ d (by rw [List.length_set]; exact h),
    List.getElem_set, if_pos rfl]

theorem getD_set_ne {α : Type} (l : List α) (i j : Nat) (x d : α)
    (h : ¬ i = j) : (l.set i x).getD j d = l.getD j d := by
  by_cases hj : j < l.length
  · rw [List.getD_eq_getElem _ d (by rw [List.length_set]; exact hj),
      List.getElem_set, if_neg h, List.getD_eq_getElem _ d hj]
  · rw [List.getD_eq_default _ d (by rw [List.length_set]; omega),
      List.getD_eq_default _ d (by omega)]

/-- The effective `i64` value a `LongCrossReaderComparator` compares for a
document (the `value1`/`value2` computation inside `compare`). -/
def longValueAt (c : LongCrossReaderComparator) (idx d : Nat) : Int :=
  if (c.docsWithFields.getD idx (fun _ => false)) d then
    (c.values.getD idx (fun _ => 0)) d else c.missingValue

theorem longCompare_eq_valueAt (c : LongCrossReaderComparator)
    (idx1 d1 idx2 d2 : Nat) :
    c.compare idx1 d1 idx2 d2 =
      (if !c.reverse then
        (i64Cmp (longValueAt c idx1 d1) (longValueAt c idx2 d2)).swap
      else i64Cmp (longValueAt c idx1 d1) (longValueAt c idx2 d2)) := rfl

/-- The comparator in which document `(idx1, d1)` is made present and
stores exactly the missing-value substitute. -/
def substLong (c : LongCrossReaderComparator) (idx1 d1 : Nat) :
    LongCrossReaderComparator :=
  { c with
    docsWithFields := c.docsWithFields.set idx1
      (fun d => if d = d1 then true
        else (c.docsWithFields.getD idx1 (fun _ => false)) d)
    values := c.values.set idx1
      (fun d => if d = d1 then c.missingValue
        else (c.values.getD idx1 (fun _ => 0)) d) }

theorem longValueAt_subst (c : LongCrossReaderComparator) (idx1 d1 : Nat)
    (h1 : idx1 < c.docsWithFields.length) (h2 : idx1 < c.values.length)
    (habs : (c.docsWithFields.getD idx1 (fun _ => false)) d1 = false) :
    ∀ idx d, longValueAt (substLong c idx1 d1) idx d = longValueAt c idx d := by
  intro idx d
  rw [longValueAt, longValueAt, substLong]
  by_cases hidx : idx1 = idx
  · subst hidx
    rw [getD_set_self_of_lt _ _ _ _ h1, getD_set_self_of_lt _ _ _ _ h2]
    by_cases hd : d = d1
    · subst hd
      simp [habs]
    · rw [if_neg hd, if_neg hd]
  · rw [getD_set_ne _ _ _ _ _ hidx, getD_set_ne _ _ _ _ _ hidx]

/-- The effective `f64` value a `DoubleCrossReaderComparator` compares. -/
def doubleValueAt (fromBits : Int → F32Model.Q)
    (c : DoubleCrossReaderComparator) (idx d : Nat) : F32Model.Q :=
  if (c.docsWithFields.getD idx (fun _ => false)) d then
    fromBits ((c.values.getD idx (fun _ => 0)) d) else c.missingValue

theorem doubleCompare_eq_valueAt (fromBits : Int → F32Model.Q)
    (c : DoubleCrossReaderComparator) (idx1 d1 idx2 d2 : Nat) :
    c.compare fromBits idx1 d1 idx2 d2 =
      (if !c.reverse then
        (qCmp (doubleValueAt fromBits c idx1 d1)
          (doubleValueAt fromBits c idx2 d2)).swap
      else qCmp (doubleValueAt fromBits c idx1 d1)
        (doubleValueAt fromBits c idx2 d2)) := rfl

/-- The comparator in which document `(idx1, d1)` is made present and
stores the bit pattern `b`. -/
def substDouble (c : DoubleCrossReaderComparator) (idx1 d1 : Nat)
    (b : Int) : DoubleCrossReaderComparator :=
  { c with
    docsWithFields := c.docsWithFields.set idx1
      (fun d => if d = d1 then true
        else (c.docsWithFields.getD idx1 (fun _ => false)) d)
    values := c.values.set idx1
      (fun d => if d = d1 then b
        else (c.values.getD idx1 (fun _ => 0)) d) }

theorem doubleValueAt_subst (fromBits : Int → F32Model.Q)
    (c : DoubleCrossReaderComparator) (idx1 d1 : Nat) (b : Int)
    (h1 : idx1 < c.docsWithFields.length) (h2 : idx1 < c.values.length)
    (habs : (c.docsWithFields.getD idx1 (fun _ => false)) d1 = false)
    (hb : fromBits b = c.missingValue) :
    ∀ idx d, doubleValueAt fromBits (substDouble c idx1 d1 b) idx d =
      doubleValueAt fromBits c idx d := by
  intro idx d
  rw [doubleValueAt, doubleValueAt, substDouble]
  by_cases hidx : idx1 = idx
  · subst hidx
    rw [getD_set_self_of_lt _ _ _ _ h1, getD_set_self_of_lt _ _ _ _ h2]
    by_cases hd : d = d1
    · subst hd
      simp [habs, hb]
    · rw [if_neg hd, if_neg hd]
  · rw [getD_set_ne _ _ _ _ _ hidx, getD_set_ne _ _ _ _ _ hidx]

end MultiSorterModel

/-- C10: when a sort field has no configured missing value, the
cross-segment comparators substitute 0 for missing long/int values and 0.0
for missing double/float values (first two conjuncts: the comparators that
`get_comparator` builds carry exactly those defaults); and a document
absent from the presence bit set compares — on either side, against any
document — exactly as if it were present holding that substitute (last two
conjuncts). -/
theorem cross_reader_missing_value_substitution :
    (∀ (readers : List MultiSorterModel.ReaderModel)
        (f : MultiSorterModel.SortField),
      (f.fieldType = MultiSorterModel.SortFieldType.long ∨
        f.fieldType = MultiSorterModel.SortFieldType.int) →
      f.missingValue = none →
      MultiSorterModel.get_comparator readers f =
        MultiSorterModel.RunResult.ok
          (MultiSorterModel.CrossReaderComparatorEnum.long
            ⟨readers.map (fun r => r.docsWithField f.field),
              readers.map (fun r => r.numericValues f.field), 0,
              f.reverse⟩)) ∧
    (∀ (readers : List MultiSorterModel.ReaderModel)
        (f : MultiSorterModel.SortField),
      (f.fieldType = MultiSorterModel.SortFieldType.double ∨
        f.fieldType = MultiSorterModel.SortFieldType.float) →
      f.missingValue = none →
      MultiSorterModel.get_comparator readers f =
        MultiSorterModel.RunResult.ok
          (MultiSorterModel.CrossReaderComparatorEnum.double
            ⟨readers.map (fun r => r.docsWithField f.field),
              readers.map (fun r => r.numericValues f.field), ⟨0, 1⟩,
              f.reverse⟩)) ∧
    (∀ (c : MultiSorterModel.LongCrossReaderComparator) (idx1 d1 : Nat),
      idx1 < c.docsWithFields.length → idx1 < c.values.length →
      (c.docsWithFields.getD idx1 (fun _ => false)) d1 = false →
      ∀ idx2 d2,
        c.compare idx1 d1 idx2 d2 =
          (MultiSorterModel.substLong c idx1 d1).compare idx1 d1 idx2 d2 ∧
        c.compare idx2 d2 idx1 d1 =
          (MultiSorterModel.substLong c idx1 d1).compare idx2 d2 idx1 d1) ∧
    (∀ (fromBits : Int → F32Model.Q)
        (c : MultiSorterModel.DoubleCrossReaderComparator)
        (idx1 d1 : Nat) (b : Int),
      idx1 < c.docsWithFields.length → idx1 < c.values.length →
      (c.docsWithFields.getD idx1 (fun _ => false)) d1 = false →
      fromBits b = c.missingValue →
      ∀ idx2 d2,
        c.compare fromBits idx1 d1 idx2 d2 =
          (MultiSorterModel.substDouble c idx1 d1 b).compare fromBits
            idx1 d1 idx2 d2 ∧
        c.compare fromBits idx2 d2 idx1 d1 =
          (MultiSorterModel.substDouble c idx1 d1 b).compare fromBits
            idx2 d2 idx1 d1) := by
  refine ⟨?_, ?_, ?_, ?_⟩
  · intro readers f htype hmiss
    obtain ⟨fname, ftype, frev, fmiss⟩ := f
    simp only at htype hmiss
    subst hmiss
    rcases htype with h | h
    · subst h; rfl
    · subst h; rfl
  · intro readers f htype hmiss
    obtain ⟨fname, ftype, frev, fmiss⟩ := f
    simp only at htype hmiss
    subst hmiss
    rcases htype with h | h
    · subst h; rfl
    · subst h; rfl
  · intro c idx1 d1 h1 h2 habs idx2 d2
    have hv := MultiSorterModel.longValueAt_subst c idx1 d1 h1 h2 habs
    have hrev : (MultiSorterModel.substLong c idx1 d1).reverse = c.reverse :=
      rfl
    constructor
    · rw [MultiSorterModel.longCompare_eq_valueAt,
        MultiSorterModel.longCompare_eq_valueAt, hrev, hv, hv]
    · rw [MultiSorterModel.longCompare_eq_valueAt,
        MultiSorterModel.longCompare_eq_valueAt, hrev, hv, hv]
  · intro fromBits c idx1 d1 b h1 h2 habs hb idx2 d2
    have hv := MultiSorterModel.doubleValueAt_subst fromBits c idx1 d1 b
      h1 h2 habs hb
    have hrev : (MultiSorterModel.substDouble c idx1 d1 b).reverse =
      c.reverse := rfl
    have hm : (MultiSorterModel.substDouble c idx1 d1 b).missingValue =
      c.missingValue := rfl
    constructor
    · rw [MultiSorterModel.doubleCompare_eq_valueAt,
        MultiSorterModel.doubleCompare_eq_valueAt, hrev, hv, hv]
    · rw [MultiSorterModel.doubleCompare_eq_valueAt,
        MultiSorterModel.doubleCompare_eq_valueAt, hrev, hv, hv]

/-- Witness for C10: concrete long and double fields with no missing value
get defaults 0 and 0.0, and concrete absent documents compare unchanged
after being substituted in. -/
theorem cross_reader_missing_value_substitution_witness :
    (MultiSorterModel.get_comparator
        [(⟨1, fun _ => true, fun _ _ => true, fun _ _ => 0⟩ :
          MultiSorterModel.ReaderModel)]
        ⟨"f", MultiSorterModel.SortFieldType.long, false, none⟩ =
      MultiSorterModel.RunResult.ok
        (MultiSorterModel.CrossReaderComparatorEnum.long
          ⟨[(⟨1, fun _ => true, fun _ _ => true, fun _ _ => 0⟩ :
              MultiSorterModel.ReaderModel)].map
              (fun r => r.docsWithField "f"),
            [(⟨1, fun _ => true, fun _ _ => true, fun _ _ => 0⟩ :
              MultiSorterModel.ReaderModel)].map
              (fun r => r.numericValues "f"), 0, false⟩)) ∧
    (MultiSorterModel.get_comparator
        [(⟨1, fun _ => true, fun _ _ => true, fun _ _ => 0⟩ :
          MultiSorterModel.ReaderModel)]
        ⟨"f", MultiSorterModel.SortFieldType.double, false, none⟩ =
      MultiSorterModel.RunResult.ok
        (MultiSorterModel.CrossReaderComparatorEnum.double
          ⟨[(⟨1, fun _ => true, fun _ _ => true, fun _ _ => 0⟩ :
              MultiSorterModel.ReaderModel)].map
              (fun r => r.docsWithField "f"),
            [(⟨1, fun _ => true, fun _ _ => true, fun _ _ => 0⟩ :
              MultiSorterModel.ReaderModel)].map
              (fun r => r.numericValues "f"), ⟨0, 1⟩, false⟩)) ∧
    ((⟨[fun _ => false], [fun _ => 7], 42, false⟩ :
        MultiSorterModel.LongCrossReaderComparator).compare 0 3 0 5 =
      (MultiSorterModel.substLong
        ⟨[fun _ => false], [fun _ => 7], 42, false⟩ 0 3).compare 0 3 0 5 ∧
      (⟨[fun _ => false], [fun _ => 7], 42, false⟩ :
        MultiSorterModel.LongCrossReaderComparator).compare 0 5 0 3 =
      (MultiSorterModel.substLong
        ⟨[fun _ => false], [fun _ => 7], 42, false⟩ 0 3).compare 0 5 0 3) ∧
    ((⟨[fun _ => false], [fun _ => 7], ⟨9, 1⟩, true⟩ :
        MultiSorterModel.DoubleCrossReaderComparator).compare
          (fun _ => ⟨9, 1⟩) 0 3 0 5 =
      (MultiSorterModel.substDouble
        ⟨[fun _ => false], [fun _ => 7], ⟨9, 1⟩, true⟩ 0 3 123).compare
          (fun _ => ⟨9, 1⟩) 0 3 0 5 ∧
      (⟨[fun _ => false], [fun _ => 7], ⟨9, 1⟩, true⟩ :
        MultiSorterModel.DoubleCrossReaderComparator).compare
          (fun _ => ⟨9, 1⟩) 0 5 0 3 =
      (MultiSorterModel.substDouble
        ⟨[fun _ => false], [fun _ => 7], ⟨9, 1⟩, true⟩ 0 3 123).compare
          (fun _ => ⟨9, 1⟩) 0 5 0 3) :=
  ⟨cross_reader_missing_value_substitution.1
      [⟨1, fun _ => true, fun _ _ => true, fun _ _ => 0⟩]
      ⟨"f", MultiSorterModel.SortFieldType.long, false, none⟩
      (Or.inl rfl) rfl,
   cross_reader_missing_value_substitution.2.1
      [⟨1, fun _ => true, fun _ _ => true, fun _ _ => 0⟩]
      ⟨"f", MultiSorterModel.SortFieldType.double, false, none⟩
      (Or.inl rfl) rfl,
   cross_reader_missing_value_substitution.2.2.1
      ⟨[fun _ => false], [fun _ => 7], 42, false⟩ 0 3
      (by decide) (by decide) rfl 0 5,
   cross_reader_missing_value_substitution.2.2.2
      (fun _ => ⟨9, 1⟩) ⟨[fun _ => false], [fun _ => 7], ⟨9, 1⟩, true⟩ 0 3
      123 (by decide) (by decide) rfl rfl 0 5⟩

namespace MultiSorterModel

/-- The deterministic final tie-break of `Ord for LeafAndDocId`:
`reader_index`, then `doc_id`. -/
def pairCmp (x y : LeafAndDocId) : Ordering :=
  if x.readerIndex ≠ y.readerIndex then natCmp x.readerIndex y.readerIndex
  else natCmp x.docId y.docId

/-- When every comparator reports `Equal` between two entries, the entry
order reduces to the `(reader_index, doc_id)` tie-break. -/
theorem entryCmp_tied (fromBits : Int → F32Model.Q)
    (cs : List CrossReaderComparatorEnum) (x y : LeafAndDocId)
    (htied : ∀ c ∈ cs, c.compare fromBits y.readerIndex y.docId
      x.readerIndex x.docId = Ordering.eq) :
    entryCmp fromBits cs x y = pairCmp x y := by
  rw [entryCmp]
  have hnone : cs.findSome? (fun c =>
      let cmp := c.compare fromBits y.readerIndex y.docId
        x.readerIndex x.docId
      if cmp = Ordering.eq then none else some cmp.swap) = none := by
    rw [List.findSome?_eq_none_iff]
    intro c hc
    simp only [htied c hc, if_pos]
  rw [hnone]
  rfl

theorem popMax_congr (cmpf cmpf2 : LeafAndDocId → LeafAndDocId → Ordering) :
    ∀ q : List LeafAndDocId, (∀ a ∈ q, ∀ b ∈ q, cmpf a b = cmpf2 a b) →
      popMax cmpf q = popMax cmpf2 q := by
  intro q
  induction q with
  | nil => intro hq; rfl
  | cons e tl ih =>
    intro hq
    have htl : popMax cmpf tl = popMax cmpf2 tl :=
      ih (fun a ha b hb => hq a (List.mem_cons_of_mem e ha) b
        (List.mem_cons_of_mem e hb))
    simp only [popMax, htl]
    rcases hr : popMax cmpf2 tl with _ | p
    · rfl
    · obtain ⟨m, rem⟩ := p
      have hm : m ∈ tl := by
        have := popMax_perm cmpf2 tl m rem hr
        exact this.symm.subset (List.mem_cons_self m rem)
      dsimp only
      rw [hq e (List.mem_cons_self e tl) m (List.mem_cons_of_mem e hm)]

/-- The pair tie-break as an arithmetic relation (lexicographic `≤`). -/
def pairLe (a b : LeafAndDocId) : Prop :=
  a.readerIndex < b.readerIndex ∨
    (a.readerIndex = b.readerIndex ∧ a.docId ≤ b.docId)

theorem pairCmp_lt_iff (x y : LeafAndDocId) :
    pairCmp x y = Ordering.lt ↔
      (x.readerIndex < y.readerIndex ∨
        (x.readerIndex = y.readerIndex ∧ x.docId < y.docId)) := by
  rw [pairCmp, natCmp, natCmp]
  by_cases h1 : x.readerIndex = y.readerIndex
  · rw [if_neg (by omega)]
    split_ifs <;> simp_all <;> omega
  · rw [if_pos h1]
    split_ifs <;> simp_all <;> omega

/-- `popMax` over the reversed pair order pops the entry with the
lexicographically smallest `(reader_index, doc_id)`. -/
theorem popMax_pairMin :
    ∀ (q : List LeafAndDocId) (top : LeafAndDocId)
      (rest : List LeafAndDocId),
      popMax (fun a b => pairCmp b a) q = some (top, rest) →
      top ∈ q ∧ ∀ b ∈ q, pairLe top b := by
  intro q
  induction q with
  | nil => intro top rest h; cases h
  | cons e tl ih =>
    intro top rest h
    simp only [popMax] at h
    rcases hr : popMax (fun a b => pairCmp b a) tl with _ | p
    · rw [hr] at h
      dsimp only at h
      have htl : tl = [] := (popMax_none_iff _ tl).mp hr
      subst htl
      simp only [Option.some.injEq, Prod.mk.injEq] at h
      obtain ⟨h1, h2⟩ := h
      subst h1
      refine ⟨List.mem_cons_self _ _, ?_⟩
      intro b hb
      rcases List.mem_cons.mp hb with hbe | hbe
      · subst hbe; right; exact ⟨rfl, le_refl _⟩
      · cases hbe
    · obtain ⟨m, rem⟩ := p
      rw [hr] at h
      dsimp only at h
      obtain ⟨hmem, hmin⟩ := ih m rem hr
      by_cases hc : pairCmp m e = Ordering.lt
      · rw [if_pos hc] at h
        simp only [Option.some.injEq, Prod.mk.injEq] at h
        obtain ⟨h1, h2⟩ := h
        subst h1
        have hme := (pairCmp_lt_iff m e).mp hc
        refine ⟨List.mem_cons_of_mem e hmem, ?_⟩
        intro b hb
        rcases List.mem_cons.mp hb with hbe | hbe
        · subst hbe
          rcases hme with hlt | ⟨heq, hdoc⟩
          · left; exact hlt
          · right; exact ⟨heq, le_of_lt hdoc⟩
        · exact hmin b hbe
      · rw [if_neg hc] at h
        simp only [Option.some.injEq, Prod.mk.injEq] at h
        obtain ⟨h1, h2⟩ := h
        subst h1
        have hem : pairLe e m := by
          rw [pairCmp_lt_iff] at hc
          rw [pairLe]
          rcases Nat.lt_trichotomy e.readerIndex m.readerIndex
            with hx | hx | hx
          · left; exact hx
          · right; exact ⟨hx, by omega⟩
          · exact absurd (Or.inl hx) hc
        refine ⟨List.mem_cons_self _ _, ?_⟩
        intro b hb
        rcases List.mem_cons.mp hb with hbe | hbe
        · subst hbe; right; exact ⟨rfl, le_refl _⟩
        · have hmb := hmin b hbe
          rw [pairLe] at hem hmb ⊢
          omega

end MultiSorterModel

namespace MultiSorterModel

theorem mergeLoop_eq_none (fromBits : Int → F32Model.Q)
    (cs : List CrossReaderComparatorEnum) (live : List (Nat → Bool))
    (st : MergeState)
    (h : popMax (entryPCmp fromBits cs) st.queue = none) :
    mergeLoop fromBits cs live st = st := by
  rw [mergeLoop]
  split
  · rfl
  · next top rest heq =>
    rw [h] at heq
    cases heq

theorem mergeLoop_eq_some (fromBits : Int → F32Model.Q)
    (cs : List CrossReaderComparatorEnum) (live : List (Nat → Bool))
    (st : MergeState) (top : LeafAndDocId) (rest : List LeafAndDocId)
    (h : popMax (entryPCmp fromBits cs) st.queue = some (top, rest)) :
    mergeLoop fromBits cs live st =
      mergeLoop fromBits cs live (stepState live st top rest) := by
  rw [mergeLoop]
  split
  · next heq =>
    rw [h] at heq
    cases heq
  · next top2 rest2 heq =>
    rw [h] at heq
    simp only [Option.some.injEq, Prod.mk.injEq] at heq
    obtain ⟨h1, h2⟩ := heq
    subst h1
    subst h2
    rfl

theorem stepState_measure_lt (fromBits : Int → F32Model.Q)
    (cs : List CrossReaderComparatorEnum) (live : List (Nat → Bool))
    (st : MergeState) (top : LeafAndDocId) (rest : List LeafAndDocId)
    (hpop : popMax (entryPCmp fromBits cs) st.queue = some (top, rest)) :
    measureOf (stepState live st top rest) < measureOf st := by
  simp only [measureOf, stepState]
  have hp := popMax_perm (entryPCmp fromBits cs) st.queue top rest hpop
  have hlen : st.queue.length = (top :: rest).length := hp.length_eq
  have hsum : (st.queue.map (fun e => e.maxDoc - e.docId)).sum =
      ((top :: rest).map (fun e => e.maxDoc - e.docId)).sum :=
    (hp.map (fun e => e.maxDoc - e.docId)).sum_eq
  simp only [List.map_cons, List.sum_cons, List.length_cons] at hlen hsum
  split_ifs with hpush
  · simp only [List.map_cons, List.sum_cons, List.length_cons]
    omega
  · omega

/-- The global slot counter never decreases across the merge loop. -/
theorem mergeLoop_mapped_mono (fromBits : Int → F32Model.Q)
    (cs : List CrossReaderComparatorEnum) (live : List (Nat → Bool)) :
    ∀ (n : Nat) (st : MergeState), measureOf st ≤ n →
      st.mappedDocId ≤ (mergeLoop fromBits cs live st).mappedDocId := by
  intro n
  induction n with
  | zero =>
    intro st hm
    rcases hpop : popMax (entryPCmp fromBits cs) st.queue with _ | p
    · rw [mergeLoop_eq_none fromBits cs live st hpop]
    · obtain ⟨top, rest⟩ := p
      have := stepState_measure_lt fromBits cs live st top rest hpop
      omega
  | succ n ih =>
    intro st hm
    rcases hpop : popMax (entryPCmp fromBits cs) st.queue with _ | p
    · rw [mergeLoop_eq_none fromBits cs live st hpop]
    · obtain ⟨top, rest⟩ := p
      rw [mergeLoop_eq_some fromBits cs live st top rest hpop]
      have hlt := stepState_measure_lt fromBits cs live st top rest hpop
      have hstep : st.mappedDocId ≤ (stepState live st top rest).mappedDocId := by
        simp only [stepState]
        split_ifs <;> omega
      exact le_trans hstep (ih (stepState live st top rest) (by omega))

end MultiSorterModel

/-- C5: in the cross-segment k-way merge, whenever the queued segment-head
entries compare `Equal` on every sort-field comparator, the entry with the
smallest `(segment index, doc id)` pair is the one popped (given the merge
invariant that entries carry pairwise distinct keys), and — since the
global slot counter never decreases over the loop — the earlier-popped
entry receives the earlier (no larger) global position, making the merged
order deterministic. -/
theorem multi_sorter_tie_break_pop_order (fromBits : Int → F32Model.Q)
    (cs : List MultiSorterModel.CrossReaderComparatorEnum)
    (q : List MultiSorterModel.LeafAndDocId)
    (top : MultiSorterModel.LeafAndDocId)
    (rest : List MultiSorterModel.LeafAndDocId)
    (htied : ∀ a ∈ q, ∀ b ∈ q, ∀ c ∈ cs,
      c.compare fromBits a.readerIndex a.docId b.readerIndex b.docId =
        Ordering.eq)
    (hdistinct : ∀ a ∈ q, ∀ b ∈ q, a.readerIndex = b.readerIndex →
      a.docId = b.docId → a = b)
    (hpop : MultiSorterModel.popMax
      (MultiSorterModel.entryPCmp fromBits cs) q = some (top, rest)) :
    (top ∈ q ∧ ∀ b ∈ q, b ≠ top →
      (top.readerIndex < b.readerIndex ∨
        (top.readerIndex = b.readerIndex ∧ top.docId < b.docId))) ∧
    (∀ (live : List (Nat → Bool)) (st : MultiSorterModel.MergeState),
      st.mappedDocId ≤
        (MultiSorterModel.mergeLoop fromBits cs live st).mappedDocId) := by
  have hcongr : MultiSorterModel.popMax
      (MultiSorterModel.entryPCmp fromBits cs) q =
      MultiSorterModel.popMax (fun a b => MultiSorterModel.pairCmp b a) q :=
    MultiSorterModel.popMax_congr _ _ q (fun a ha b hb => by
      rw [MultiSorterModel.entryPCmp]
      exact MultiSorterModel.entryCmp_tied fromBits cs b a
        (fun c hc => htied a ha b hb c hc))
  rw [hcongr] at hpop
  obtain ⟨hmem, hmin⟩ := MultiSorterModel.popMax_pairMin q top rest hpop
  refine ⟨⟨hmem, ?_⟩, fun live st =>
    MultiSorterModel.mergeLoop_mapped_mono fromBits cs live
      (MultiSorterModel.measureOf st) st le_rfl⟩
  intro b hb hne
  have hle := hmin b hb
  rw [MultiSorterModel.pairLe] at hle
  rcases hle with hlt | hpair
  · left; exact hlt
  · obtain ⟨heq, hdoc⟩ := hpair
    rcases Nat.lt_or_ge top.docId b.docId with hdlt | hdge
    · right; exact ⟨heq, hdlt⟩
    · have hdeq : top.docId = b.docId := by omega
      have := hdistinct top hmem b hb heq hdeq
      exact absurd this.symm hne

/-- Witness for C5: two head entries with equal field values (constant
long field); the entry of segment 0 is popped before the entry of
segment 1. -/
theorem multi_sorter_tie_break_pop_order_witness :
    ((⟨0, 2, 0⟩ : MultiSorterModel.LeafAndDocId) ∈
      [(⟨0, 2, 0⟩ : MultiSorterModel.LeafAndDocId), ⟨1, 2, 0⟩] ∧
      ∀ b ∈ [(⟨0, 2, 0⟩ : MultiSorterModel.LeafAndDocId), ⟨1, 2, 0⟩],
        b ≠ (⟨0, 2, 0⟩ : MultiSorterModel.LeafAndDocId) →
        ((⟨0, 2, 0⟩ : MultiSorterModel.LeafAndDocId).readerIndex <
            b.readerIndex ∨
          ((⟨0, 2, 0⟩ : MultiSorterModel.LeafAndDocId).readerIndex =
              b.readerIndex ∧
            (⟨0, 2, 0⟩ : MultiSorterModel.LeafAndDocId).docId < b.docId))) ∧
    (∀ (live : List (Nat → Bool)) (st : MultiSorterModel.MergeState),
      st.mappedDocId ≤
        (MultiSorterModel.mergeLoop (fun b => (⟨b, 1⟩ : F32Model.Q))
          [MultiSorterModel.CrossReaderComparatorEnum.long
            ⟨[fun _ => true, fun _ => true], [fun _ => 5, fun _ => 5], 0,
              false⟩] live st).mappedDocId) :=
  multi_sorter_tie_break_pop_order (fun b => (⟨b, 1⟩ : F32Model.Q))
    [MultiSorterModel.CrossReaderComparatorEnum.long
      ⟨[fun _ => true, fun _ => true], [fun _ => 5, fun _ => 5], 0, false⟩]
    [⟨0, 2, 0⟩, ⟨1, 2, 0⟩] ⟨0, 2, 0⟩ [⟨1, 2, 0⟩]
    (by decide) (by decide) (by decide)

namespace MultiSorterModel

/-- Live-doc count below `n` for one segment. -/
def liveCount (live : Nat → Bool) (n : Nat) : Nat :=
  (List.range n).countP live

/-- Total number of live documents already recorded across all builders. -/
def liveTotal (live : List (Nat → Bool)) (builders : List (List Int)) : Nat :=
  ((List.range builders.length).map (fun i =>
    liveCount (live.getD i (fun _ => false))
      (builders.getD i []).length)).sum

theorem liveCount_succ (live : Nat → Bool) (n : Nat) :
    liveCount live (n + 1) =
      liveCount live n + (if live n then 1 else 0) := by
  rw [liveCount, liveCount, List.range_succ, List.countP_append]
  simp [List.countP_cons]

/-- Changing one index of the per-segment summand shifts the total by the
difference at that index. -/
theorem sum_range_update (f g : Nat → Nat) :
    ∀ (len i0 : Nat), i0 < len → (∀ j, ¬ j = i0 → f j = g j) →
      ((List.range len).map g).sum + f i0 =
        ((List.range len).map f).sum + g i0 := by
  intro len
  induction len with
  | zero => intro i0 h0; omega
  | succ len ih =>
    intro i0 hi0 hfg
    rw [List.range_succ, List.map_append, List.map_append,
      List.sum_append, List.sum_append]
    by_cases hl : i0 = len
    · subst hl
      have hpre : (List.range i0).map f = (List.range i0).map g := by
        apply List.map_congr_left
        intro a ha
        rw [List.mem_range] at ha
        exact hfg a (by omega)
      rw [hpre]
      simp
      omega
    · have hlt : i0 < len := by omega
      have := ih i0 hlt hfg
      have hlast : f len = g len := hfg len (by omega)
      simp only [List.map_cons, List.map_nil, List.sum_cons, List.sum_nil]
        at *
      omega

/-- The merge-loop invariant: builder lengths track each queued entry's
current doc id, exhausted segments have complete builders, every recorded
slot is bounded by the counter, builders are sorted, and the counter equals
the number of live documents recorded so far. -/
def InvState (maxDocs : List Nat) (live : List (Nat → Bool))
    (st : MergeState) : Prop :=
  st.builders.length = maxDocs.length ∧
  (∀ e ∈ st.queue, e.readerIndex < maxDocs.length ∧
    e.maxDoc = maxDocs.getD e.readerIndex 0 ∧
    e.docId < e.maxDoc ∧
    (st.builders.getD e.readerIndex []).length = e.docId) ∧
  (st.queue.map (fun e => e.readerIndex)).Nodup ∧
  (∀ i, i < maxDocs.length → (∀ e ∈ st.queue, e.readerIndex ≠ i) →
    (st.builders.getD i []).length = maxDocs.getD i 0) ∧
  (∀ i, ∀ x ∈ st.builders.getD i [], x ≤ st.mappedDocId) ∧
  (∀ i, List.Pairwise (· ≤ ·) (st.builders.getD i [])) ∧
  st.mappedDocId = (liveTotal live st.builders : Int)

theorem InvState_step (maxDocs : List Nat) (live : List (Nat → Bool))
    (st : MergeState) (top : LeafAndDocId) (rest : List LeafAndDocId)
    (hperm : List.Perm st.queue (top :: rest))
    (hinv : InvState maxDocs live st) :
    InvState maxDocs live (stepState live st top rest) := by
  obtain ⟨hlen, hq, hnd, hfin, hbnd, hsort, hcnt⟩ := hinv
  have htop : top ∈ st.queue := hperm.symm.subset (List.mem_cons_self _ _)
  obtain ⟨hti, htm, htd, htb⟩ := hq top htop
  have hrest : ∀ e ∈ rest, e ∈ st.queue :=
    fun e he => hperm.symm.subset (List.mem_cons_of_mem _ he)
  have hnd2 : ((top :: rest).map (fun e => e.readerIndex)).Nodup :=
    (hperm.map (fun e => e.readerIndex)).nodup_iff.mp hnd
  rw [List.map_cons, List.nodup_cons] at hnd2
  obtain ⟨hnottop, hndrest⟩ := hnd2
  have hrestne : ∀ e ∈ rest, e.readerIndex ≠ top.readerIndex := by
    intro e he hcontra
    exact hnottop (hcontra ▸ List.mem_map_of_mem (fun x => x.readerIndex) he)
  have hbl : top.readerIndex < st.builders.length := by omega
  have hggself : ((st.builders.set top.readerIndex
      ((st.builders.getD top.readerIndex []) ++ [st.mappedDocId])).getD
        top.readerIndex []) =
      (st.builders.getD top.readerIndex []) ++ [st.mappedDocId] :=
    getD_set_self_of_lt _ _ _ _ hbl
  have hggne : ∀ i, ¬ top.readerIndex = i →
      ((st.builders.set top.readerIndex
        ((st.builders.getD top.readerIndex []) ++ [st.mappedDocId])).getD
          i []) = st.builders.getD i [] :=
    fun i hi => getD_set_ne _ _ _ _ _ hi
  have hmapped : st.mappedDocId ≤ (stepState live st top rest).mappedDocId := by
    simp only [stepState]
    split_ifs <;> omega
  refine ⟨?_, ?_, ?_, ?_, ?_, ?_, ?_⟩
  · simp only [stepState, List.length_set]
    exact hlen
  · intro e he
    simp only [stepState] at he
    by_cases hpush : top.docId + 1 < top.maxDoc
    · rw [if_pos hpush] at he
      rcases List.mem_cons.mp he with hee | hee
      · subst hee
        simp only [stepState]
        refine ⟨hti, htm, hpush, ?_⟩
        rw [hggself, List.length_append, htb]
        rfl
      · obtain ⟨h1, h2, h3, h4⟩ := hq e (hrest e hee)
        simp only [stepState]
        refine ⟨h1, h2, h3, ?_⟩
        rw [hggne e.readerIndex
          (fun hcontra => hrestne e hee hcontra.symm)]
        exact h4
    · rw [if_neg hpush] at he
      obtain ⟨h1, h2, h3, h4⟩ := hq e (hrest e he)
      simp only [stepState]
      refine ⟨h1, h2, h3, ?_⟩
      rw [hggne e.readerIndex
        (fun hcontra => hrestne e he hcontra.symm)]
      exact h4
  · simp only [stepState]
    by_cases hpush : top.docId + 1 < top.maxDoc
    · rw [if_pos hpush]
      rw [List.map_cons, List.nodup_cons]
      exact ⟨hnottop, hndrest⟩
    · rw [if_neg hpush]
      exact hndrest
  · intro i hi hnone
    simp only [stepState] at hnone ⊢
    by_cases hii : top.readerIndex = i
    · subst hii
      by_cases hpush : top.docId + 1 < top.maxDoc
      · rw [if_pos hpush] at hnone
        have hcontra := hnone ⟨top.readerIndex, top.maxDoc, top.docId + 1⟩
          (List.mem_cons_self _ _)
        simp at hcontra
      · rw [hggself, List.length_append, htb]
        simp only [List.length_cons, List.length_nil]
        omega
    · rw [hggne i hii]
      apply hfin i hi
      intro e he
      rcases List.mem_cons.mp (hperm.subset he) with hee | hee
      · subst hee
        exact fun hc => hii hc
      · by_cases hpush : top.docId + 1 < top.maxDoc
        · rw [if_pos hpush] at hnone
          exact hnone e (List.mem_cons_of_mem _ hee)
        · rw [if_neg hpush] at hnone
          exact hnone e hee
  · intro i x hx
    simp only [stepState] at hx
    by_cases hii : top.readerIndex = i
    · subst hii
      rw [hggself] at hx
      rcases List.mem_append.mp hx with h1 | h1
      · exact le_trans (hbnd _ x h1) hmapped
      · simp only [List.mem_cons, List.not_mem_nil, or_false] at h1
        subst h1
        exact hmapped
    · rw [hggne i hii] at hx
      exact le_trans (hbnd i x hx) hmapped
  · intro i
    simp only [stepState]
    by_cases hii : top.readerIndex = i
    · subst hii
      rw [hggself]
      rw [List.pairwise_append]
      refine ⟨hsort _, List.pairwise_singleton _ _, ?_⟩
      intro a ha b hb
      simp only [List.mem_cons, List.not_mem_nil, or_false] at hb
      subst hb
      exact hbnd _ a ha
    · rw [hggne i hii]
      exact hsort i
  · simp only [stepState]
    have hside : ∀ j, ¬ j = top.readerIndex →
        liveCount (live.getD j (fun _ => false))
          (((st.builders.set top.readerIndex
            ((st.builders.getD top.readerIndex []) ++
              [st.mappedDocId])).getD j []).length) =
        liveCount (live.getD j (fun _ => false))
          ((st.builders.getD j []).length) := by
      intro j hj
      rw [hggne j (fun hc => hj hc.symm)]
    have hat : liveCount (live.getD top.readerIndex (fun _ => false))
        (((st.builders.set top.readerIndex
          ((st.builders.getD top.readerIndex []) ++
            [st.mappedDocId])).getD top.readerIndex []).length) =
        liveCount (live.getD top.readerIndex (fun _ => false))
          ((st.builders.getD top.readerIndex []).length) +
        (if (live.getD top.readerIndex (fun _ => false)) top.docId
          then 1 else 0) := by
      rw [hggself, List.length_append, htb]
      simp only [List.length_cons, List.length_nil]
      rw [liveCount_succ]
    have hupd := sum_range_update
      (fun i => liveCount (live.getD i (fun _ => false))
        (((st.builders.set top.readerIndex
          ((st.builders.getD top.readerIndex []) ++
            [st.mappedDocId])).getD i []).length))
      (fun i => liveCount (live.getD i (fun _ => false))
        ((st.builders.getD i []).length))
      st.builders.length top.readerIndex hbl hside
    simp only at hupd
    have hlive : liveTotal live (st.builders.set top.readerIndex
        ((st.builders.getD top.readerIndex []) ++ [st.mappedDocId])) =
        liveTotal live st.builders +
          (if (live.getD top.readerIndex (fun _ => false)) top.docId
            then 1 else 0) := by
      rw [liveTotal, liveTotal, List.length_set]
      omega
    rw [hlive]
    split_ifs with hl <;> omega

end MultiSorterModel

namespace MultiSorterModel

theorem mergeLoop_inv (fromBits : Int → F32Model.Q)
    (cs : List CrossReaderComparatorEnum) (live : List (Nat → Bool))
    (maxDocs : List Nat) :
    ∀ (n : Nat) (st : MergeState), measureOf st ≤ n →
      InvState maxDocs live st →
      InvState maxDocs live (mergeLoop fromBits cs live st) ∧
      (mergeLoop fromBits cs live st).queue = [] := by
  intro n
  induction n with
  | zero =>
    intro st hm hinv
    rcases hpop : popMax (entryPCmp fromBits cs) st.queue with _ | p
    · rw [mergeLoop_eq_none fromBits cs live st hpop]
      exact ⟨hinv, (popMax_none_iff _ _).mp hpop⟩
    · obtain ⟨top, rest⟩ := p
      have := stepState_measure_lt fromBits cs live st top rest hpop
      omega
  | succ n ih =>
    intro st hm hinv
    rcases hpop : popMax (entryPCmp fromBits cs) st.queue with _ | p
    · rw [mergeLoop_eq_none fromBits cs live st hpop]
      exact ⟨hinv, (popMax_none_iff _ _).mp hpop⟩
    · obtain ⟨top, rest⟩ := p
      rw [mergeLoop_eq_some fromBits cs live st top rest hpop]
      have hperm := popMax_perm (entryPCmp fromBits cs) st.queue top rest hpop
      have hstep := InvState_step maxDocs live st top rest hperm hinv
      have hlt := stepState_measure_lt fromBits cs live st top rest hpop
      exact ih (stepState live st top rest) (by omega) hstep

theorem getD_replicate_nil (n i : Nat) :
    (List.replicate n ([] : List Int)).getD i [] = [] := by
  by_cases hi : i < n
  · rw [List.getD_eq_getElem _ _ (by rw [List.length_replicate]; exact hi),
      List.getElem_replicate]
  · rw [List.getD_eq_default _ _ (by rw [List.length_replicate]; omega)]

theorem initState_inv (readers : List ReaderModel)
    (hmax : ∀ r ∈ readers, 1 ≤ r.maxDoc) :
    InvState (readers.map (fun r => r.maxDoc))
      (readers.map (fun r => r.liveDocs)) (initState readers) := by
  refine ⟨?_, ?_, ?_, ?_, ?_, ?_, ?_⟩
  · simp [initState]
  · intro e he
    simp only [initState] at he
    rw [List.mem_map] at he
    obtain ⟨i, hi, hie⟩ := he
    rw [List.mem_range] at hi
    subst hie
    refine ⟨by rw [List.length_map]; exact hi, rfl, ?_, ?_⟩
    · have hget : (readers.map (fun r => r.maxDoc)).getD i 0 =
          readers[i].maxDoc := by
        rw [List.getD_eq_getElem _ _ (by rw [List.length_map]; exact hi),
          List.getElem_map]
      rw [hget]
      exact hmax readers[i] (List.getElem_mem hi)
    · simp only [initState]
      rw [getD_replicate_nil]
      rfl
  · simp only [initState, List.map_map]
    have hfun : ((fun e => e.readerIndex) ∘
        (fun i => (⟨i, (readers.map (fun r => r.maxDoc)).getD i 0, 0⟩ :
          LeafAndDocId))) = fun i => i := rfl
    rw [hfun]
    simpa using List.nodup_range readers.length
  · intro i hi hnone
    rw [List.length_map] at hi
    have hmem : (⟨i, (readers.map (fun r => r.maxDoc)).getD i 0, 0⟩ :
        LeafAndDocId) ∈ (initState readers).queue := by
      simp only [initState]
      exact List.mem_map_of_mem _ (List.mem_range.mpr hi)
    have := hnone _ hmem
    simp at this
  · intro i x hx
    simp only [initState] at hx
    rw [getD_replicate_nil] at hx
    cases hx
  · intro i
    simp only [initState]
    rw [getD_replicate_nil]
    exact List.Pairwise.nil
  · simp only [initState, liveTotal]
    rw [List.length_replicate]
    have hzero : ∀ x ∈ (List.range readers.length).map (fun i =>
        liveCount ((readers.map (fun r => r.liveDocs)).getD i
          (fun _ => false))
          ((List.replicate readers.length ([] : List Int)).getD i
            []).length), x = 0 := by
      intro x hx
      rw [List.mem_map] at hx
      obtain ⟨i, hi, hix⟩ := hx
      rw [getD_replicate_nil] at hix
      exact hix.symm
    rw [List.sum_eq_zero hzero]
    rfl

end MultiSorterModel

/-- C6: during a cross-segment merge every popped document — deleted or
live — has the current global slot recorded in its segment's
local-to-global map, and the slot counter advances only for live
documents: at the end of the merge each segment's builder holds exactly
`maxDoc` entries (one per local doc id, appended in doc-id order), each
builder is monotonically non-decreasing, and the final counter equals the
number of live documents recorded. -/
theorem multi_sorter_local_to_global_maps (fromBits : Int → F32Model.Q)
    (cs : List MultiSorterModel.CrossReaderComparatorEnum)
    (readers : List MultiSorterModel.ReaderModel)
    (hmax : ∀ r ∈ readers, 1 ≤ r.maxDoc) :
    (∀ i, i < readers.length →
      ((MultiSorterModel.mergeRun fromBits cs readers).builders.getD
          i []).length =
        (readers.map (fun r => r.maxDoc)).getD i 0 ∧
      List.Pairwise (· ≤ ·)
        ((MultiSorterModel.mergeRun fromBits cs readers).builders.getD
          i [])) ∧
    (MultiSorterModel.mergeRun fromBits cs readers).mappedDocId =
      (MultiSorterModel.liveTotal (readers.map (fun r => r.liveDocs))
        (MultiSorterModel.mergeRun fromBits cs readers).builders : Int) := by
  have hinit := MultiSorterModel.initState_inv readers hmax
  obtain ⟨hinv, hempty⟩ := MultiSorterModel.mergeLoop_inv fromBits cs
    (readers.map (fun r => r.liveDocs)) (readers.map (fun r => r.maxDoc))
    (MultiSorterModel.measureOf (MultiSorterModel.initState readers))
    (MultiSorterModel.initState readers) le_rfl hinit
  obtain ⟨hlen, hq, hnd, hfin, hbnd, hsort, hcnt⟩ := hinv
  rw [MultiSorterModel.mergeRun]
  refine ⟨?_, hcnt⟩
  intro i hi
  constructor
  · apply hfin i (by rw [List.length_map]; exact hi)
    intro e he
    rw [hempty] at he
    cases he
  · exact hsort i

/-- Witness for C6: two segments (one fully live single-doc segment, one
two-doc segment with all docs deleted), no sort fields (tie-break order
only): builders are complete and monotone and the counter counts only the
live document. -/
theorem multi_sorter_local_to_global_maps_witness :
    (∀ i, i < ([(⟨1, fun _ => true, fun _ _ => true, fun _ _ => 0⟩ :
        MultiSorterModel.ReaderModel),
        ⟨2, fun _ => false, fun _ _ => true, fun _ _ => 0⟩]).length →
      ((MultiSorterModel.mergeRun (fun b => (⟨b, 1⟩ : F32Model.Q)) []
          [⟨1, fun _ => true, fun _ _ => true, fun _ _ => 0⟩,
            ⟨2, fun _ => false, fun _ _ => true, fun _ _ => 0⟩]).builders.getD
          i []).length =
        (([(⟨1, fun _ => true, fun _ _ => true, fun _ _ => 0⟩ :
          MultiSorterModel.ReaderModel),
          ⟨2, fun _ => false, fun _ _ => true, fun _ _ => 0⟩]).map
            (fun r => r.maxDoc)).getD i 0 ∧
      List.Pairwise (· ≤ ·)
        ((MultiSorterModel.mergeRun (fun b => (⟨b, 1⟩ : F32Model.Q)) []
          [⟨1, fun _ => true, fun _ _ => true, fun _ _ => 0⟩,
            ⟨2, fun _ => false, fun _ _ => true, fun _ _ => 0⟩]).builders.getD
          i [])) ∧
    (MultiSorterModel.mergeRun (fun b => (⟨b, 1⟩ : F32Model.Q)) []
      [⟨1, fun _ => true, fun _ _ => true, fun _ _ => 0⟩,
        ⟨2, fun _ => false, fun _ _ => true, fun _ _ => 0⟩]).mappedDocId =
      (MultiSorterModel.liveTotal
        (([(⟨1, fun _ => true, fun _ _ => true, fun _ _ => 0⟩ :
          MultiSorterModel.ReaderModel),
          ⟨2, fun _ => false, fun _ _ => true, fun _ _ => 0⟩]).map
            (fun r => r.liveDocs))
        (MultiSorterModel.mergeRun (fun b => (⟨b, 1⟩ : F32Model.Q)) []
          [⟨1, fun _ => true, fun _ _ => true, fun _ _ => 0⟩,
            ⟨2, fun _ => false, fun _ _ => true, fun _ _ => 0⟩]).builders :
        Int) :=
  multi_sorter_local_to_global_maps (fun b => (⟨b, 1⟩ : F32Model.Q)) []
    [⟨1, fun _ => true, fun _ _ => true, fun _ _ => 0⟩,
      ⟨2, fun _ => false, fun _ _ => true, fun _ _ => 0⟩]
    (by decide)
